import Mathlib

/-!
# The memory-mapped word dictionary of `dict.c`

A shallow embedding of `dict.c`.  The mapped region is viewed the way the C
code views it, as an array of `struct dict_item`; bytes are natural numbers,
`0` is the NUL terminator and `10` the line feed.  A computation that leaves
the C abstract machine (a read or write outside an object, a signed counter
running over) yields `none`.
-/

namespace Dict

set_option maxRecDepth 100000

/-! ## Machine constants -/

/-- Largest value of the 32-bit C type `int`. -/
def INT_MAX : Nat := 2147483647

/-- Number of values of the 64-bit type `size_t`. -/
def SIZE_MOD : Nat := 18446744073709551616

/-- Value of the macro `EXIT_FAILURE`. -/
def EXIT_FAILURE : Int := 1

/-- Value of `sizeof(struct dict_item)`: 100 bytes of `word`, 4 bytes of
padding and the 8 bytes of `len` (LP64). -/
def sizeof_dict_item : Nat := 112

/-- Capacity in bytes of the `word` field, also of the `line` buffer. -/
def WORD_SIZE : Nat := 100

/-- Subtraction of two `size_t` values: it wraps around below zero. -/
def size_sub (a b : Nat) : Nat := if b ≤ a then a - b else a + SIZE_MOD - b

/-- Conversion of a `size_t` value to `int`, as in `int len = dictionary_len(dict)`. -/
def size_to_int (x : Nat) : Int :=
  if x % 4294967296 < 2147483648 then ((x % 4294967296 : Nat) : Int)
  else ((x % 4294967296 : Nat) : Int) - 4294967296

/-- The operation `i++` on an `int`: undefined past `INT_MAX`. -/
def int_incr (i : Nat) : Option Nat :=
  if i + 1 ≤ INT_MAX then some (i + 1) else none

/-! ## C strings -/

/-- The bytes of a buffer before its first NUL. -/
def c_str (buf : List Nat) : List Nat := buf.takeWhile (fun c => c != 0)

/-- The libc `strlen`: the number of bytes before the first NUL of the buffer;
undefined when the buffer holds no NUL. -/
def strlen : List Nat → Option Nat
  | [] => none
  | c :: s => if c = 0 then some 0 else (strlen s).map (fun k => k + 1)

/-- The libc `strcmp`: the difference of the first pair of bytes that differ,
`0` when both strings end together; undefined when a buffer ends first. -/
def strcmp : List Nat → List Nat → Option Int
  | [], _ => none
  | _ :: _, [] => none
  | a :: s, b :: t =>
    if a ≠ b then some ((a : Int) - (b : Int))
    else if a = 0 then some 0
    else strcmp s t

/-- The libc `strncpy(dst, src, n)`: writes exactly `n` bytes at the start of
`dst`, the first `n` bytes of the string `src`, NUL-padded when the string is
shorter; undefined when `n` bytes do not fit in `dst`, or when `src` ends
before a NUL and before `n` bytes. -/
def strncpy (dst src : List Nat) (n : Nat) : Option (List Nat) :=
  if n ≤ dst.length ∧ (0 ∈ src ∨ n ≤ src.length) then
    some ((c_str src).take n ++ List.replicate (n - (c_str src).length) 0 ++ dst.drop n)
  else none

/-- The bytes one call of `fgets` takes from the stream: at most `k` of them,
up to and including the first line feed. Returns them with the rest of the
stream. -/
def fgets_read : Nat → List Nat → List Nat × List Nat
  | 0, s => ([], s)
  | _ + 1, [] => ([], [])
  | k + 1, c :: s =>
    if c = 10 then ([c], s)
    else ((c :: (fgets_read k s).1), (fgets_read k s).2)

/-- The libc `fgets(line, size, f)`: `none` (NULL) at end of file, otherwise the
buffer contents (the bytes read and a NUL) and the rest of the stream. -/
def fgets (size : Nat) (f : List Nat) : Option (List Nat × List Nat) :=
  match f with
  | [] => none
  | _ :: _ => some ((fgets_read (size - 1) f).1 ++ [0], (fgets_read (size - 1) f).2)

/-! ## Data model -/

/-- The record `struct dict_item`. -/
structure dict_item where
  /-- The field `char word[100]`. -/
  word : List Nat
  /-- The field `size_t len`. -/
  len : Nat
deriving DecidableEq

/-- The handle `struct dict_t`. A field that was never assigned is `none`. -/
structure dict_t where
  /-- The field `path`. -/
  path : String
  /-- The field `fd`. -/
  fd : Option Int
  /-- The field `num_items`. -/
  num_items : Nat
  /-- The field `base`: the records of the mapped region. -/
  base : Option (List dict_item)
deriving DecidableEq

/-- The backing file at `dict->path`, viewed as whole records, and the outcome
of the system calls on it. -/
structure World where
  /-- Content of the backing file (`[]` when it does not exist yet). -/
  file : List dict_item
  /-- What `open` returns: a descriptor, or `-1`. -/
  open_fd : Int
  /-- Whether the system lets `ftruncate` resize the file. -/
  ftruncate_ok : Bool
  /-- Whether the system lets `mmap` map the file. -/
  mmap_ok : Bool
deriving DecidableEq

/-- An all-zero record: what a fresh or extended file holds. -/
def zero_item : dict_item := ⟨List.replicate WORD_SIZE 0, 0⟩

/-- A fresh region of `capacity` all-zero records. -/
def fresh_region (capacity : Nat) : List dict_item := List.replicate capacity zero_item

/-- The read `dict->base[i]`. -/
def deref (base : Option (List dict_item)) (i : Nat) : Option dict_item :=
  match base with
  | none => none
  | some region => region[i]?

/-- The stored word of a record: the bytes of its `word` field before the first NUL. -/
def stored_word (item : dict_item) : List Nat := c_str item.word

/-! ## Operations -/

/-- Source `dictionary_new`: sets `num_items` and `path`, nothing else. -/
def dictionary_new (data_file : String) (num_items : Nat) : dict_t :=
  { path := data_file, fd := none, num_items := num_items, base := none }

/-- Source `dictionary_len`: a `size_t` product. -/
def dictionary_len (dict : dict_t) : Nat :=
  (dict.num_items * sizeof_dict_item) % SIZE_MOD

/-- The system call `ftruncate(fd, len)`: fails on a negative length, otherwise
cuts the file or extends it with zero bytes. -/
def ftruncate (w : World) (len : Int) : Option World :=
  if w.ftruncate_ok = true ∧ 0 ≤ len then
    some { w with file := w.file.take (len.toNat / sizeof_dict_item) ++
        List.replicate (len.toNat / sizeof_dict_item - w.file.length) zero_item }
  else none

/-- The system call `mmap(NULL, len, ..., MAP_SHARED, fd, 0)`: fails on a zero
length, otherwise gives the first `len` bytes of the file. -/
def mmap (w : World) (len : Int) : Option (List dict_item) :=
  if w.mmap_ok = true ∧ 0 < len then some (w.file.take (len.toNat / sizeof_dict_item))
  else none

/-- The system call `msync(base, len, MS_SYNC)`: the mapped records are in the file. -/
def msync (w : World) (base : Option (List dict_item)) : World :=
  match base with
  | none => w
  | some region => { w with file := region ++ w.file.drop region.length }

/-- Source `dictionary_open_map`: returns the new world, the handle and the
returned `int`. -/
def dictionary_open_map (w : World) (dict : dict_t) : World × dict_t × Int :=
  let len := size_to_int (dictionary_len dict)
  let fd := w.open_fd
  if fd = -1 then (w, dict, EXIT_FAILURE)
  else
    match ftruncate w len with
    | none => (w, dict, EXIT_FAILURE)
    | some w1 =>
      match mmap w1 len with
      | none => (w1, dict, EXIT_FAILURE)
      | some region => (w1, { dict with base := some region, fd := some fd }, fd)

/-- The `while` loop of `dictionary_generate`. The first argument counts the
iterations left before `i < dict->num_items` fails, the second is `i`, the
third the unread part of the stream. -/
def generate_loop (base : Option (List dict_item)) :
    Nat → Nat → List Nat → Option (Option (List dict_item))
  | left, i, f =>
    match fgets WORD_SIZE f with
    | none => some base
    | some (line, rest) =>
      match left with
      | 0 => some base
      | left1 + 1 =>
        match strlen line, deref base i, base with
        | some l, some item, some region =>
          match strncpy item.word line (size_sub l 1) with
          | none => none
          | some word1 =>
            match int_incr i with
            | none => none
            | some i1 =>
              generate_loop
                (some (region.set i { word := word1, len := size_sub l 1 })) left1 i1 rest
        | _, _, _ => none

/-- Source `dictionary_generate`. `input` is the content of the source file,
`none` when `fopen` fails. The outer `none` is undefined behaviour. -/
def dictionary_generate (w : World) (dict : dict_t) (input : Option (List Nat)) :
    Option (World × dict_t × Int) :=
  match dictionary_open_map w dict with
  | (w1, dict1, _) =>
    match input with
    | none => some (w1, dict1, 0)
    | some f =>
      match generate_loop dict1.base dict1.num_items 0 f with
      | none => none
      | some base1 => some (msync w1 base1, { dict1 with base := base1 }, 1)

/-- Source `dictionary_load`: it has no `return`, so no value comes back. -/
def dictionary_load (w : World) (dict : dict_t) : World × dict_t × Option Int :=
  match dictionary_open_map w dict with
  | (w1, dict1, _) => (w1, dict1, none)

/-- Source `dictionary_close`: unmaps and frees; the file stays. -/
def dictionary_close (w : World) (_dict : dict_t) : World := w

/-- The loop of `dictionary_exists`: `some (some i)` is the pointer
`dict->base[i].word`, `some none` is NULL. -/
def exists_loop (base : Option (List dict_item)) (word : List Nat) :
    Nat → Nat → Option (Option Nat)
  | 0, _ => some none
  | left + 1, i =>
    match deref base i with
    | none => none
    | some item =>
      match strcmp item.word (word ++ [0]) with
      | none => none
      | some r =>
        if r = 0 then some (some i)
        else
          match int_incr i with
          | none => none
          | some i1 => exists_loop base word left i1

/-- Source `dictionary_exists`, on the query string `word` (without its NUL). -/
def dictionary_exists (dict : dict_t) (word : List Nat) : Option (Option Nat) :=
  exists_loop dict.base word dict.num_items 0

/-- The counting loop the three counting functions share, for the test `p`. -/
def count_loop (p : dict_item → Bool) (base : Option (List dict_item)) :
    Nat → Nat → Nat → Option Nat
  | 0, _, count => some count
  | left + 1, i, count =>
    match deref base i with
    | none => none
    | some item =>
      match (if p item = true then int_incr count else some count) with
      | none => none
      | some count1 =>
        match int_incr i with
        | none => none
        | some i1 => count_loop p base left i1 count1

/-- Source `dictionary_larger_than`. -/
def dictionary_larger_than (dict : dict_t) (n : Nat) : Option Nat :=
  count_loop (fun item => decide (item.len > n)) dict.base dict.num_items 0 0

/-- Source `dictionary_smaller_than`. -/
def dictionary_smaller_than (dict : dict_t) (n : Nat) : Option Nat :=
  count_loop (fun item => decide (item.len < n) && decide (item.len ≠ 0))
    dict.base dict.num_items 0 0

/-- Source `dictionary_equal_to`. -/
def dictionary_equal_to (dict : dict_t) (n : Nat) : Option Nat :=
  count_loop (fun item => decide (item.len = n)) dict.base dict.num_items 0 0

/-- Index, counted from `i`, of the first record of the list whose stored word
is `word`. -/
def first_match (word : List Nat) : List dict_item → Nat → Option Nat
  | [], _ => none
  | item :: rest, i =>
    if stored_word item = word then some i else first_match word rest (i + 1)

/-! ## Sources and well-formed states -/

/-- The text of a source made of newline-terminated lines. -/
def source_of_lines : List (List Nat) → List Nat
  | [] => []
  | l :: ls => l ++ 10 :: source_of_lines ls

/-- A dictionary state whose records are `region`: `base` points to `num_items`
records, and `num_items` is in the range of the `int` loop counters. -/
def has_region (dict : dict_t) (region : List dict_item) : Prop :=
  dict.base = some region ∧ region.length = dict.num_items ∧ dict.num_items ≤ INT_MAX

/-- Every `word` field of the region holds a NUL, so it holds a C string. -/
def terminated (region : List dict_item) : Prop :=
  ∀ item ∈ region, 0 ∈ item.word

/-- The record that holds the line `l` in an otherwise zero `word` field. -/
def item_of_line (l : List Nat) : dict_item :=
  ⟨l ++ List.replicate (WORD_SIZE - l.length) 0, l.length⟩

/-- The records left by storing the lines, one per record from the front, each
over what the record held before. -/
def store_lines : List (List Nat) → List dict_item → List dict_item
  | [], suf => suf
  | _ :: _, [] => []
  | l :: ls, item :: rest =>
    { word := l ++ item.word.drop l.length, len := l.length } :: store_lines ls rest

/-- A line of a word list: at most 98 bytes, none of them a NUL or a line feed. -/
def good_line (l : List Nat) : Prop := l.length ≤ 98 ∧ 0 ∉ l ∧ 10 ∉ l

/-- The records that generating from the lines leaves in a fresh region of
`capacity` records. -/
def gen_region (capacity : Nat) (lines : List (List Nat)) : List dict_item :=
  (lines.take capacity).map item_of_line ++ fresh_region (capacity - lines.length)

/-- The handle made by `dictionary_new`, opened on a fresh all-zero region of
`capacity` records. -/
def opens_fresh (w : World) (path : String) (capacity : Nat) : Prop :=
  (dictionary_open_map w (dictionary_new path capacity)).2.1.base = some (fresh_region capacity)

/-- A world in which the backing file does not exist yet and every system call
succeeds; `open` returns descriptor 3. -/
def fresh_world : World := { file := [], open_fd := 3, ftruncate_ok := true, mmap_ok := true }

/-- A sample region: the words apple, bee, cat and two unused slots. -/
def sample_region : List dict_item :=
  [item_of_line [97, 112, 112, 108, 101], item_of_line [98, 101, 101],
    item_of_line [99, 97, 116], zero_item, zero_item]

/-- A sample dictionary state of capacity 5 over `sample_region`. -/
def sample_dict : dict_t :=
  { path := "words.db", fd := some 3, num_items := 5, base := some sample_region }

/-- The handle after Generate, then Close, then Load with the same path and
capacity; `none` when `dictionary_generate` is undefined. -/
def generate_close_load (w : World) (path : String) (capacity : Nat)
    (input : Option (List Nat)) : Option dict_t :=
  (dictionary_generate w (dictionary_new path capacity) input).map
    (fun r => (dictionary_load (dictionary_close r.1 r.2.1) (dictionary_new path capacity)).2.1)

/-- The source text of the lines apple, bee, cat. -/
def sample_source : List Nat :=
  source_of_lines [[97, 112, 112, 108, 101], [98, 101, 101], [99, 97, 116]]

/-- A world in which `open` fails on the backing file. -/
def failing_world : World := { file := [], open_fd := -1, ftruncate_ok := true, mmap_ok := true }

/-- A record within the bounds of its `word` field: the field has its 100 bytes
and holds a NUL, the stored word and `len` are at most 98. -/
def bounded_item (item : dict_item) : Prop :=
  item.word.length = WORD_SIZE ∧ item.len ≤ 98 ∧ 0 ∈ item.word ∧
    (stored_word item).length ≤ 98

/-- A world whose backing file was generated before: slot 0 holds xx, slot 1
holds yyyyyyy. Every system call succeeds. -/
def reused_world : World :=
  { file := [item_of_line [120, 120], item_of_line [121, 121, 121, 121, 121, 121, 121]],
    open_fd := 3, ftruncate_ok := true, mmap_ok := true }

/-- The handle made by `dictionary_new`, opened on a region that holds the
records `region`. -/
def opens_on (w : World) (path : String) (capacity : Nat) (region : List dict_item) : Prop :=
  (dictionary_open_map w (dictionary_new path capacity)).2.1.base = some region

/-! ## Lemmas on strings -/

theorem c_str_append_nul (s t : List Nat) (hs : 0 ∉ s) : c_str (s ++ 0 :: t) = s := by
  induction s with
  | nil => simp [c_str]
  | cons a s ih =>
    have ha : a ≠ 0 := fun h => hs (by simp [h])
    have hs1 : 0 ∉ s := fun h => hs (by simp [h])
    have := ih hs1
    simp only [c_str] at this ⊢
    simp [List.takeWhile_cons, ha, this]

theorem strlen_append_nul (s t : List Nat) (hs : 0 ∉ s) : strlen (s ++ 0 :: t) = some s.length := by
  induction s with
  | nil => simp [strlen]
  | cons a s ih =>
    have ha : a ≠ 0 := fun h => hs (by simp [h])
    have hs1 : 0 ∉ s := fun h => hs (by simp [h])
    simp [strlen, ha, ih hs1]

theorem strcmp_query (a q : List Nat) (ha : 0 ∈ a) (hq : 0 ∉ q) :
    ∃ r, strcmp a (q ++ [0]) = some r ∧ (r = 0 ↔ c_str a = q) := by
  induction a generalizing q with
  | nil => simp at ha
  | cons x s ih =>
    cases q with
    | nil =>
      by_cases hx : x = 0
      · subst hx; exact ⟨0, by simp [strcmp], by simp [c_str]⟩
      · refine ⟨(x : Int) - 0, by simp [strcmp, hx], ?_⟩
        simp [c_str, List.takeWhile_cons, hx]
    | cons y t =>
      have hy : y ≠ 0 := fun h => hq (by simp [h])
      have ht : 0 ∉ t := fun h => hq (by simp [h])
      by_cases hxy : x = y
      · subst hxy
        have hs : 0 ∈ s := by
          rcases List.mem_cons.mp ha with h | h
          · exact absurd h.symm hy
          · exact h
        obtain ⟨r, hr, hiff⟩ := ih t hs ht
        refine ⟨r, by simp [strcmp, hy, hr], ?_⟩
        rw [hiff]
        simp [c_str, List.takeWhile_cons, hy]
      · refine ⟨(x : Int) - (y : Int), by simp [strcmp, hxy], ?_⟩
        constructor
        · intro h
          exact absurd (by omega : x = y) hxy
        · intro h
          exfalso
          by_cases hx : x = 0
          · simp [c_str, List.takeWhile_cons, hx] at h
          · simp [c_str, List.takeWhile_cons, hx] at h
            exact hxy h.1


/-! ## Lemmas on the scanning loops -/

theorem deref_append (pre suf : List dict_item) (item : dict_item) :
    deref (some (pre ++ item :: suf)) pre.length = some item := by
  show (pre ++ item :: suf)[pre.length]? = some item
  rw [List.getElem?_append_right (le_refl _)]
  simp

theorem count_loop_append (p : dict_item → Bool) (suf pre : List dict_item) (count : Nat)
    (hlen : (pre ++ suf).length ≤ INT_MAX) (hcount : count ≤ pre.length) :
    count_loop p (some (pre ++ suf)) suf.length pre.length count
      = some (count + suf.countP p) := by
  induction suf generalizing pre count with
  | nil => simp [count_loop]
  | cons item rest ih =>
    have hlen1 : pre.length + (rest.length + 1) ≤ INT_MAX := by simpa using hlen
    have hi : int_incr pre.length = some (pre.length + 1) := by
      unfold int_incr; rw [if_pos (by omega)]
    have hpre : pre ++ item :: rest = (pre ++ [item]) ++ rest := by simp
    have hrec := fun c (hc : c ≤ pre.length + 1) =>
      ih (pre ++ [item]) c (by simpa using hlen) (by simpa using hc)
    simp only [List.length_append, List.length_singleton] at hrec
    simp only [List.length_cons, count_loop, deref_append]
    by_cases hp : p item = true
    · have hc : int_incr count = some (count + 1) := by
        unfold int_incr; rw [if_pos (by omega)]
      rw [if_pos hp, hc]
      simp only [hi]
      rw [hpre, hrec (count + 1) (by omega), List.countP_cons_of_pos _ _ hp]
      congr 1; omega
    · rw [if_neg hp]
      simp only [hi]
      rw [hpre, hrec count (by omega), List.countP_cons_of_neg _ _ hp]

theorem count_loop_region (p : dict_item → Bool) (region : List dict_item)
    (hlen : region.length ≤ INT_MAX) :
    count_loop p (some region) region.length 0 0 = some (region.countP p) := by
  have h := count_loop_append p region [] 0 (by simpa using hlen) (by simp)
  simpa using h


theorem exists_loop_append (word : List Nat) (suf pre : List dict_item)
    (hlen : (pre ++ suf).length ≤ INT_MAX) (hnul : ∀ item ∈ suf, 0 ∈ item.word)
    (hword : 0 ∉ word) :
    exists_loop (some (pre ++ suf)) word suf.length pre.length
      = some (first_match word suf pre.length) := by
  induction suf generalizing pre with
  | nil => simp [exists_loop, first_match]
  | cons item rest ih =>
    have hlen1 : pre.length + (rest.length + 1) ≤ INT_MAX := by simpa using hlen
    have hi : int_incr pre.length = some (pre.length + 1) := by
      unfold int_incr; rw [if_pos (by omega)]
    have hpre : pre ++ item :: rest = (pre ++ [item]) ++ rest := by simp
    have hrec := ih (pre ++ [item]) (by simpa using hlen)
      (fun it hit => hnul it (List.mem_cons_of_mem _ hit))
    simp only [List.length_append, List.length_singleton] at hrec
    obtain ⟨r, hr, hiff⟩ := strcmp_query item.word word (hnul item (List.mem_cons_self _ _)) hword
    simp only [List.length_cons, exists_loop, deref_append, hr, first_match, stored_word]
    by_cases h0 : r = 0
    · rw [if_pos h0, if_pos (hiff.mp h0)]
    · rw [if_neg h0, if_neg (fun h => h0 (hiff.mpr h))]
      simp only [hi]
      rw [hpre, hrec]

theorem first_match_none (word : List Nat) (l : List dict_item) (i : Nat) :
    first_match word l i = none ↔ ∀ item ∈ l, stored_word item ≠ word := by
  induction l generalizing i with
  | nil => simp [first_match]
  | cons item rest ih =>
    by_cases h : stored_word item = word
    · simp [first_match, h]
    · simp [first_match, h, ih]

theorem first_match_some (word : List Nat) (l : List dict_item) (i j : Nat) :
    first_match word l i = some j ↔
      ∃ k, j = i + k ∧ (∃ item, l[k]? = some item ∧ stored_word item = word) ∧
        ∀ m, m < k → ∀ item, l[m]? = some item → stored_word item ≠ word := by
  induction l generalizing i with
  | nil => simp [first_match]
  | cons item rest ih =>
    by_cases h : stored_word item = word
    · simp only [first_match, h, if_true, Option.some.injEq]
      constructor
      · intro hj
        exact ⟨0, by omega, ⟨item, by simp, h⟩, fun m hm => absurd hm (Nat.not_lt_zero m)⟩
      · rintro ⟨k, hk, _, hbefore⟩
        cases k with
        | zero => omega
        | succ k => exact absurd h (hbefore 0 (Nat.succ_pos k) item (by simp))
    · simp only [first_match, h, if_false]
      rw [ih]
      constructor
      · rintro ⟨k, hk, ⟨it, hit, hw⟩, hbefore⟩
        refine ⟨k + 1, by omega, ⟨it, by simpa using hit, hw⟩, ?_⟩
        intro m hm it2 hit2
        cases m with
        | zero =>
          simp at hit2
          subst hit2
          exact h
        | succ m => exact hbefore m (by omega) it2 (by simpa using hit2)
      · rintro ⟨k, hk, ⟨it, hit, hw⟩, hbefore⟩
        cases k with
        | zero =>
          simp at hit
          subst hit
          exact absurd hw h
        | succ k =>
          refine ⟨k, by omega, ⟨it, by simpa using hit, hw⟩, ?_⟩
          intro m hm it2 hit2
          exact hbefore (m + 1) (by omega) it2 (by simpa using hit2)


theorem count_partition (n : Nat) (hn : 1 ≤ n) (region : List dict_item) :
    region.countP (fun item => decide (item.len > n))
      + region.countP (fun item => decide (item.len < n) && decide (item.len ≠ 0))
      + region.countP (fun item => decide (item.len = n))
      = region.countP (fun item => decide (0 < item.len)) := by
  induction region with
  | nil => simp
  | cons item rest ih =>
    simp only [List.countP_cons, decide_eq_true_eq, Bool.and_eq_true]
    split_ifs <;> omega

theorem count_partition_zero (region : List dict_item) :
    region.countP (fun item => decide (item.len > 0))
      + region.countP (fun item => decide (item.len < 0) && decide (item.len ≠ 0))
      + region.countP (fun item => decide (item.len = 0))
      = region.length := by
  induction region with
  | nil => simp
  | cons item rest ih =>
    simp only [List.countP_cons, decide_eq_true_eq, Bool.and_eq_true, List.length_cons]
    split_ifs <;> omega

/-! ## Lemmas on the generating loop -/

theorem fgets_read_line (l rest : List Nat) (k : Nat) (hnl : 10 ∉ l) (hk : l.length < k) :
    fgets_read k (l ++ 10 :: rest) = (l ++ [10], rest) := by
  induction l generalizing k with
  | nil =>
    cases k with
    | zero => omega
    | succ k => simp [fgets_read]
  | cons c l ih =>
    have hc : c ≠ 10 := fun h => hnl (by simp [h])
    have hl : 10 ∉ l := fun h => hnl (by simp [h])
    cases k with
    | zero => omega
    | succ k =>
      have hk1 : l.length < k := by simpa using hk
      simp [fgets_read, hc, ih k hl hk1]

theorem fgets_line (l rest : List Nat) (hnl : 10 ∉ l) (hlen : l.length ≤ 98) :
    fgets WORD_SIZE (l ++ 10 :: rest) = some (l ++ [10] ++ [0], rest) := by
  have h := fgets_read_line l rest (WORD_SIZE - 1) hnl (by unfold WORD_SIZE; omega)
  cases l with
  | nil => simp only [List.nil_append] at h ⊢; simp [fgets, h]
  | cons c l => simp only [List.cons_append] at h ⊢; simp [fgets, h]

theorem strlen_line (l : List Nat) (hnul : 0 ∉ l) :
    strlen (l ++ [10] ++ [0]) = some (l.length + 1) := by
  have h := strlen_append_nul (l ++ [10]) [] (by simp [hnul])
  simpa using h

theorem size_sub_succ (n : Nat) : size_sub (n + 1) 1 = n := by
  unfold size_sub
  rw [if_pos (by omega)]
  omega

theorem strncpy_line (dst l : List Nat) (hnul : 0 ∉ l) (hlen : l.length ≤ dst.length) :
    strncpy dst (l ++ [10] ++ [0]) l.length = some (l ++ dst.drop l.length) := by
  have hc : c_str (l ++ [10] ++ [0]) = l ++ [10] := by
    have h := c_str_append_nul (l ++ [10]) [] (by simp [hnul])
    simpa using h
  unfold strncpy
  rw [if_pos ⟨hlen, Or.inl (by simp)⟩, hc]
  simp

theorem generate_loop_lines (lines : List (List Nat)) (suf pre : List dict_item)
    (hlen : (pre ++ suf).length ≤ INT_MAX) (hgood : ∀ l ∈ lines, good_line l)
    (hword : ∀ item ∈ suf, 98 ≤ item.word.length) :
    generate_loop (some (pre ++ suf)) suf.length pre.length (source_of_lines lines)
      = some (some (pre ++ store_lines lines suf)) := by
  induction lines generalizing suf pre with
  | nil => simp [generate_loop, source_of_lines, fgets, store_lines]
  | cons l ls ih =>
    obtain ⟨hl98, hl0, hl10⟩ := hgood l (List.mem_cons_self _ _)
    have hls : ∀ x ∈ ls, good_line x := fun x hx => hgood x (List.mem_cons_of_mem _ hx)
    cases suf with
    | nil =>
      unfold generate_loop
      simp [source_of_lines, fgets_line l _ hl10 hl98, store_lines]
    | cons item rest =>
      have hlen1 : pre.length + (rest.length + 1) ≤ INT_MAX := by simpa using hlen
      have hi : int_incr pre.length = some (pre.length + 1) := by
        unfold int_incr; rw [if_pos (by omega)]
      have hitem : l.length ≤ item.word.length := by
        have := hword item (List.mem_cons_self _ _)
        omega
      have hset : (pre ++ item :: rest).set pre.length
          { word := l ++ item.word.drop l.length, len := l.length }
          = (pre ++ [{ word := l ++ item.word.drop l.length, len := l.length }]) ++ rest := by
        rw [List.set_append_right _ _ (le_refl _)]
        simp
      have hrec := ih rest (pre ++ [{ word := l ++ item.word.drop l.length, len := l.length }])
        (by simpa using hlen) hls (fun it hit => hword it (List.mem_cons_of_mem _ hit))
      simp only [List.length_append, List.length_singleton] at hrec
      unfold generate_loop
      simp only [source_of_lines, fgets_line l _ hl10 hl98, List.length_cons, strlen_line l hl0,
        deref_append, size_sub_succ l.length, strncpy_line item.word l hl0 hitem, hi,
        hset, hrec, store_lines]
      simp

/-! ## Lemmas on opening the mapping -/

theorem size_to_int_le (x : Nat) : size_to_int x ≤ 2147483647 := by
  unfold size_to_int
  split_ifs <;> omega

theorem mmap_some (w : World) (len : Int) (region : List dict_item)
    (h : mmap w len = some region) :
    w.mmap_ok = true ∧ 0 < len ∧ region = w.file.take (len.toNat / sizeof_dict_item) := by
  unfold mmap at h
  split_ifs at h with hc
  exact ⟨hc.1, hc.2, (Option.some.inj h).symm⟩

theorem ftruncate_some (w w1 : World) (len : Int) (h : ftruncate w len = some w1) :
    w.ftruncate_ok = true ∧ 0 ≤ len ∧
      w1 = { w with file := w.file.take (len.toNat / sizeof_dict_item) ++
        List.replicate (len.toNat / sizeof_dict_item - w.file.length) zero_item } := by
  unfold ftruncate at h
  split_ifs at h with hc
  exact ⟨hc.1, hc.2, (Option.some.inj h).symm⟩

theorem open_map_num_items (w : World) (dict : dict_t) :
    (dictionary_open_map w dict).2.1.num_items = dict.num_items := by
  simp only [dictionary_open_map]
  split_ifs
  · rfl
  · split
    · rfl
    · split <;> rfl

theorem open_map_cases (w : World) (dict : dict_t) :
    ((dictionary_open_map w dict).2.1 = dict ∧
      ((dictionary_open_map w dict).1 = w ∨
        ftruncate w (size_to_int (dictionary_len dict)) = some (dictionary_open_map w dict).1 ∧
        mmap (dictionary_open_map w dict).1 (size_to_int (dictionary_len dict)) = none)) ∨
    (∃ w1 region, w.open_fd ≠ -1 ∧
      ftruncate w (size_to_int (dictionary_len dict)) = some w1 ∧
      mmap w1 (size_to_int (dictionary_len dict)) = some region ∧
      dictionary_open_map w dict
        = (w1, { dict with base := some region, fd := some w.open_fd }, w.open_fd)) := by
  simp only [dictionary_open_map]
  by_cases hfd : w.open_fd = -1
  · left
    simp [hfd]
  · cases hft : ftruncate w (size_to_int (dictionary_len dict)) with
    | none =>
      left
      simp [hfd]
    | some w1 =>
      cases hmm : mmap w1 (size_to_int (dictionary_len dict)) with
      | none =>
        left
        simp [hfd, hmm]
      | some region =>
        right
        exact ⟨w1, region, hfd, rfl, hmm, by simp [hfd, hmm]⟩

theorem open_map_new_some (w : World) (path : String) (cap : Nat) (region : List dict_item)
    (h : (dictionary_open_map w (dictionary_new path cap)).2.1.base = some region) :
    region.length ≤ INT_MAX ∧
    ∃ w1, dictionary_open_map w (dictionary_new path cap)
      = (w1, { path := path, fd := some w.open_fd, num_items := cap, base := some region },
          w.open_fd) := by
  rcases open_map_cases w (dictionary_new path cap) with ⟨hsame, _⟩ | ⟨w1, r1, _, _, hmm, heq⟩
  · rw [hsame] at h
    simp [dictionary_new] at h
  · rw [heq] at h
    have hr : r1 = region := by simpa using h
    subst hr
    obtain ⟨_, _, hreg⟩ := mmap_some _ _ _ hmm
    refine ⟨?_, w1, by rw [heq]; rfl⟩
    have hle := size_to_int_le (dictionary_len (dictionary_new path cap))
    have h1 : r1.length ≤ (size_to_int (dictionary_len (dictionary_new path cap))).toNat
        / sizeof_dict_item := by
      rw [hreg, List.length_take]
      exact Nat.min_le_left _ _
    have h2 := Nat.div_le_self
      (size_to_int (dictionary_len (dictionary_new path cap))).toNat sizeof_dict_item
    unfold INT_MAX
    omega

/-! ## Lemmas on generating into a fresh region -/

theorem store_lines_fresh (lines : List (List Nat)) (n : Nat) :
    store_lines lines (fresh_region n) = gen_region n lines := by
  induction lines generalizing n with
  | nil => simp [store_lines, gen_region]
  | cons l ls ih =>
    cases n with
    | zero => simp [store_lines, gen_region, fresh_region]
    | succ m =>
      have hfresh : fresh_region (m + 1) = zero_item :: fresh_region m := by
        simp [fresh_region, List.replicate_succ]
      rw [hfresh]
      simp only [store_lines, ih m, gen_region, List.take_succ_cons, List.map_cons,
        List.cons_append, List.length_cons, Nat.add_sub_add_right]
      congr 1
      simp [item_of_line, zero_item]

theorem stored_word_item_of_line (l : List Nat) (h0 : 0 ∉ l) (hlen : l.length < WORD_SIZE) :
    stored_word (item_of_line l) = l := by
  obtain ⟨k, hk⟩ : ∃ k, WORD_SIZE - l.length = k + 1 := ⟨WORD_SIZE - l.length - 1, by omega⟩
  simp only [stored_word, item_of_line, hk, List.replicate_succ]
  exact c_str_append_nul l _ h0

theorem stored_word_zero_item : stored_word zero_item = [] := by
  simp [stored_word, zero_item, c_str, WORD_SIZE, List.replicate_succ]

theorem gen_region_length (cap : Nat) (lines : List (List Nat)) :
    (gen_region cap lines).length = cap := by
  simp only [gen_region, fresh_region, List.length_append, List.length_map, List.length_take,
    List.length_replicate]
  omega

theorem gen_region_terminated (cap : Nat) (lines : List (List Nat))
    (hgood : ∀ l ∈ lines, good_line l) : terminated (gen_region cap lines) := by
  intro item hitem
  simp only [gen_region, fresh_region, List.mem_append, List.mem_map] at hitem
  rcases hitem with ⟨l, hl, rfl⟩ | hz
  · obtain ⟨h98, _, _⟩ := hgood l (List.mem_of_mem_take hl)
    obtain ⟨k, hk⟩ : ∃ k, WORD_SIZE - l.length = k + 1 :=
      ⟨WORD_SIZE - l.length - 1, by unfold WORD_SIZE; omega⟩
    simp [item_of_line, hk, List.replicate_succ]
  · rw [List.eq_of_mem_replicate hz]
    simp [zero_item, WORD_SIZE, List.replicate_succ]

theorem generate_fresh (w : World) (path : String) (cap : Nat) (lines : List (List Nat))
    (hfresh : opens_fresh w path cap) (hgood : ∀ l ∈ lines, good_line l) :
    ∃ w1 d1, dictionary_generate w (dictionary_new path cap) (some (source_of_lines lines))
        = some (w1, d1, 1) ∧ has_region d1 (gen_region cap lines) := by
  obtain ⟨hmax, w1, heq⟩ := open_map_new_some w path cap _ hfresh
  have hlen : (fresh_region cap).length = cap := by simp [fresh_region]
  rw [hlen] at hmax
  have hloop := generate_loop_lines lines (fresh_region cap) [] (by simpa [hlen] using hmax)
    hgood (by
      intro item hitem
      rw [List.eq_of_mem_replicate hitem]
      simp [zero_item, WORD_SIZE])
  simp only [List.nil_append, List.length_nil, hlen, store_lines_fresh] at hloop
  refine ⟨msync w1 (some (gen_region cap lines)),
    { path := path, fd := some w.open_fd, num_items := cap,
      base := some (gen_region cap lines) }, ?_, rfl, gen_region_length cap lines, hmax⟩
  simp only [dictionary_generate, heq, hloop]

theorem dictionary_exists_eq_first_match (dict : dict_t) (region : List dict_item)
    (word : List Nat) (hreg : has_region dict region) (hnul : terminated region)
    (hword : 0 ∉ word) :
    dictionary_exists dict word = some (first_match word region 0) := by
  obtain ⟨hbase, hlen, hmax⟩ := hreg
  have h := exists_loop_append word region [] (by simpa [hlen] using hmax) hnul hword
  unfold dictionary_exists
  rw [hbase, ← hlen]
  simpa using h

theorem gen_region_getElem_line (cap : Nat) (lines : List (List Nat)) (i : Nat) (l : List Nat)
    (hi : i < cap) (hl : lines[i]? = some l) :
    (gen_region cap lines)[i]? = some (item_of_line l) := by
  have hlt : i < lines.length := by
    by_contra hge
    rw [List.getElem?_eq_none (by omega)] at hl
    exact Option.noConfusion hl
  unfold gen_region
  rw [List.getElem?_append_left (by simp only [List.length_map, List.length_take]; omega),
    List.getElem?_map, List.getElem?_take_of_lt hi, hl]
  rfl

theorem gen_region_getElem_unused (cap : Nat) (lines : List (List Nat)) (i : Nat)
    (hi : i < cap) (hk : lines.length ≤ i) :
    (gen_region cap lines)[i]? = some zero_item := by
  unfold gen_region fresh_region
  rw [List.getElem?_append_right (by simp only [List.length_map, List.length_take]; omega)]
  simp only [List.length_map, List.length_take]
  rw [List.getElem?_replicate_of_lt (by omega)]

theorem gen_region_mem (cap : Nat) (lines : List (List Nat)) (item : dict_item)
    (h : item ∈ gen_region cap lines) :
    (∃ l, l ∈ lines.take cap ∧ item = item_of_line l) ∨ item = zero_item := by
  simp only [gen_region, fresh_region, List.mem_append, List.mem_map] at h
  rcases h with ⟨l, hl, rfl⟩ | hz
  · exact Or.inl ⟨l, hl, rfl⟩
  · exact Or.inr (List.eq_of_mem_replicate hz)

/-! ## Lemmas on the generating loop over any text -/

theorem generate_loop_unmapped (left i : Nat) (f : List Nat) (b : Option (List dict_item))
    (h : generate_loop none left i f = some b) : b = none := by
  unfold generate_loop at h
  cases hfg : fgets WORD_SIZE f with
  | none =>
    rw [hfg] at h
    exact (Option.some.inj h).symm
  | some p =>
    rw [hfg] at h
    cases left with
    | zero => exact (Option.some.inj h).symm
    | succ left1 =>
      simp only [deref] at h
      split at h <;> simp_all

theorem generate_loop_length (left : Nat) :
    ∀ (region : List dict_item) (i : Nat) (f : List Nat) (b : Option (List dict_item)),
      generate_loop (some region) left i f = some b →
      ∃ region1, b = some region1 ∧ region1.length = region.length := by
  induction left with
  | zero =>
    intro region i f b h
    unfold generate_loop at h
    cases hfg : fgets WORD_SIZE f with
    | none =>
      rw [hfg] at h
      exact ⟨region, (Option.some.inj h).symm, rfl⟩
    | some p =>
      rw [hfg] at h
      exact ⟨region, (Option.some.inj h).symm, rfl⟩
  | succ left1 ih =>
    intro region i f b h
    unfold generate_loop at h
    cases hfg : fgets WORD_SIZE f with
    | none =>
      rw [hfg] at h
      exact ⟨region, (Option.some.inj h).symm, rfl⟩
    | some p =>
      rw [hfg] at h
      simp only at h
      cases hl : strlen p.1 with
      | none => simp [hl] at h
      | some l =>
        cases hd : deref (some region) i with
        | none => simp [hl, hd] at h
        | some item =>
          simp only [hl, hd] at h
          cases hs : strncpy item.word p.1 (size_sub l 1) with
          | none => simp [hs] at h
          | some word1 =>
            cases hi : int_incr i with
            | none => simp [hs, hi] at h
            | some i1 =>
              simp only [hs, hi] at h
              obtain ⟨region1, hb, hlen⟩ := ih _ _ _ _ h
              exact ⟨region1, hb, by simpa using hlen⟩

theorem fgets_read_append (k : Nat) (f : List Nat) :
    (fgets_read k f).1 ++ (fgets_read k f).2 = f ∧ (fgets_read k f).1.length ≤ k := by
  induction k generalizing f with
  | zero => simp [fgets_read]
  | succ k ih =>
    cases f with
    | nil => simp [fgets_read]
    | cons c t =>
      by_cases hc : c = 10
      · simp [fgets_read, hc]
      · obtain ⟨h1, h2⟩ := ih t
        simp [fgets_read, hc, h1, h2]

theorem fgets_read_ne_nil (k : Nat) (c : Nat) (t : List Nat) :
    (fgets_read (k + 1) (c :: t)).1 ≠ [] := by
  by_cases hc : c = 10 <;> simp [fgets_read, hc]

theorem generate_loop_total (suf : List dict_item) :
    ∀ (pre : List dict_item) (f : List Nat), (pre ++ suf).length ≤ INT_MAX → 0 ∉ f →
      (∀ item ∈ suf, 98 ≤ item.word.length) →
      ∃ region1, generate_loop (some (pre ++ suf)) suf.length pre.length f
        = some (some region1) := by
  induction suf with
  | nil =>
    intro pre f _ _ _
    unfold generate_loop
    cases fgets WORD_SIZE f <;> exact ⟨_, rfl⟩
  | cons item rest ih =>
    intro pre f hlen hf hword
    cases f with
    | nil =>
      unfold generate_loop
      exact ⟨_, rfl⟩
    | cons c t =>
      obtain ⟨happ, hle⟩ := fgets_read_append (WORD_SIZE - 1) (c :: t)
      have hne := fgets_read_ne_nil 98 c t
      have hfg : fgets WORD_SIZE (c :: t) = some ((fgets_read 99 (c :: t)).1 ++ [0],
          (fgets_read 99 (c :: t)).2) := rfl
      have hW : WORD_SIZE - 1 = 99 := rfl
      rw [hW] at happ hle
      generalize (fgets_read 99 (c :: t)).1 = chunk at happ hle hne hfg
      generalize (fgets_read 99 (c :: t)).2 = tail at happ hfg
      have hchunk : 0 ∉ chunk := fun h => hf (by rw [← happ]; exact List.mem_append_left _ h)
      have htail : 0 ∉ tail := fun h => hf (by rw [← happ]; exact List.mem_append_right _ h)
      have hpos : 1 ≤ chunk.length := by
        cases chunk with
        | nil => exact absurd rfl hne
        | cons _ _ => simp
      have hstrlen : strlen (chunk ++ [0]) = some chunk.length :=
        strlen_append_nul chunk [] hchunk
      have hsub : size_sub chunk.length 1 = chunk.length - 1 := by
        unfold size_sub
        rw [if_pos hpos]
      have hitem := hword item (List.mem_cons_self _ _)
      have hcopy : ∃ word1, strncpy item.word (chunk ++ [0]) (chunk.length - 1) = some word1 ∧
          word1.length = item.word.length := by
        unfold strncpy
        rw [if_pos ⟨by omega, Or.inl (by simp)⟩]
        refine ⟨_, rfl, ?_⟩
        simp only [List.length_append, List.length_take, List.length_replicate,
          List.length_drop]
        omega
      obtain ⟨word1, hcopy, _⟩ := hcopy
      have hlen1 : pre.length + (rest.length + 1) ≤ INT_MAX := by simpa using hlen
      have hi : int_incr pre.length = some (pre.length + 1) := by
        unfold int_incr; rw [if_pos (by omega)]
      have hset : (pre ++ item :: rest).set pre.length
          { word := word1, len := chunk.length - 1 }
          = (pre ++ [{ word := word1, len := chunk.length - 1 }]) ++ rest := by
        rw [List.set_append_right _ _ (le_refl _)]
        simp
      obtain ⟨region1, hrec⟩ := ih (pre ++ [{ word := word1, len := chunk.length - 1 }]) tail
        (by simpa using hlen) htail (fun it hit => hword it (List.mem_cons_of_mem _ hit))
      simp only [List.length_append, List.length_singleton] at hrec
      refine ⟨region1, ?_⟩
      unfold generate_loop
      simp only [hfg, List.length_cons, hstrlen, deref_append, hsub, hcopy, hi, hset, hrec]

/-! ## Lemmas on reopening the file -/

theorem ftruncate_stable (w : World) (len : Int) (hft : w.ftruncate_ok = true) (hlen : 0 ≤ len)
    (hfile : w.file.length = len.toNat / sizeof_dict_item) : ftruncate w len = some w := by
  unfold ftruncate
  rw [if_pos ⟨hft, hlen⟩, ← hfile]
  simp

theorem mmap_stable (w : World) (len : Int) (hmm : w.mmap_ok = true) (hlen : 0 < len)
    (hfile : w.file.length = len.toNat / sizeof_dict_item) : mmap w len = some w.file := by
  unfold mmap
  rw [if_pos ⟨hmm, hlen⟩, ← hfile]
  simp

theorem ftruncate_length (w w1 : World) (len : Int) (h : ftruncate w len = some w1) :
    w1.file.length = len.toNat / sizeof_dict_item ∧ w1.open_fd = w.open_fd ∧
      w1.ftruncate_ok = true ∧ w1.mmap_ok = w.mmap_ok ∧ 0 ≤ len := by
  obtain ⟨hft, hlen, rfl⟩ := ftruncate_some w w1 len h
  refine ⟨?_, rfl, hft, rfl, hlen⟩
  simp only [List.length_append, List.length_take, List.length_replicate]
  omega

theorem open_map_stable (w : World) (dict : dict_t) (hfd : w.open_fd ≠ -1)
    (hft : w.ftruncate_ok = true) (hmm : w.mmap_ok = true)
    (hlen : 0 < size_to_int (dictionary_len dict))
    (hfile : w.file.length = (size_to_int (dictionary_len dict)).toNat / sizeof_dict_item) :
    dictionary_open_map w dict
      = (w, { dict with base := some w.file, fd := some w.open_fd }, w.open_fd) := by
  simp only [dictionary_open_map, if_neg hfd, ftruncate_stable w _ hft (le_of_lt hlen) hfile,
    mmap_stable w _ hmm hlen hfile]

theorem open_map_unmapped (w wa : World) (dict : dict_t)
    (hft : ftruncate w (size_to_int (dictionary_len dict)) = some wa)
    (hmm : mmap wa (size_to_int (dictionary_len dict)) = none) :
    (dictionary_open_map wa dict).2.1 = dict := by
  obtain ⟨hfile, _, hok, _, hlen⟩ := ftruncate_length w wa _ hft
  simp only [dictionary_open_map, ftruncate_stable wa _ hok hlen hfile, hmm]
  split_ifs <;> rfl

theorem roundtrip_base (w : World) (path : String) (cap : Nat) (input : Option (List Nat))
    (w1 : World) (d1 : dict_t) (r : Int)
    (hgen : dictionary_generate w (dictionary_new path cap) input = some (w1, d1, r)) :
    (dictionary_load (dictionary_close w1 d1) (dictionary_new path cap)).2.1.base = d1.base ∧
    (dictionary_load (dictionary_close w1 d1) (dictionary_new path cap)).2.1.num_items
      = d1.num_items := by
  simp only [dictionary_generate] at hgen
  simp only [dictionary_load, dictionary_close]
  have hnum := open_map_num_items w (dictionary_new path cap)
  have hnum1 := open_map_num_items w1 (dictionary_new path cap)
  rcases open_map_cases w (dictionary_new path cap) with ⟨hsame, hw⟩ | ⟨wa, region, hfd, hft, hmm, hO⟩
  · -- the mapping was not established
    have hbase : (dictionary_open_map w (dictionary_new path cap)).2.1.base = none := by
      rw [hsame]; rfl
    have hreopen : (dictionary_open_map (dictionary_open_map w (dictionary_new path cap)).1
        (dictionary_new path cap)).2.1 = dictionary_new path cap := by
      rcases hw with hw | ⟨hft, hmm⟩
      · rw [hw, hsame]
      · exact open_map_unmapped w _ _ hft hmm
    cases input with
    | none =>
      simp only [Option.some.injEq, Prod.mk.injEq] at hgen
      obtain ⟨hw1, hd1, _⟩ := hgen
      rw [← hw1, ← hd1, hreopen, hsame]
      exact ⟨rfl, rfl⟩
    | some f =>
      simp only [hbase] at hgen
      cases hloop : generate_loop none
          (dictionary_open_map w (dictionary_new path cap)).2.1.num_items 0 f with
      | none => simp [hloop] at hgen
      | some b =>
        have hb := generate_loop_unmapped _ _ _ _ hloop
        subst hb
        simp only [hloop, msync, Option.some.injEq, Prod.mk.injEq] at hgen
        obtain ⟨hw1, hd1, _⟩ := hgen
        rw [← hw1, ← hd1, hreopen]
        exact ⟨rfl, by rw [hsame]⟩
  · -- the mapping was established
    obtain ⟨hfile, hfd1, hok, hmm1, hlen0⟩ := ftruncate_length w wa _ hft
    obtain ⟨hmmok, hpos, hreg⟩ := mmap_some _ _ _ hmm
    have hregion : region = wa.file := by
      rw [hreg, ← hfile, List.take_length]
    rw [hO] at hgen
    simp only at hgen
    cases input with
    | none =>
      simp only [Option.some.injEq, Prod.mk.injEq] at hgen
      obtain ⟨hw1, hd1, _⟩ := hgen
      rw [← hw1, ← hd1, open_map_stable wa _ (by rw [hfd1]; exact hfd) hok hmmok hpos hfile,
        hregion]
      exact ⟨rfl, rfl⟩
    | some f =>
      cases hloop : generate_loop (some region) (dictionary_new path cap).num_items 0 f with
      | none => simp [hloop] at hgen
      | some b =>
        obtain ⟨region1, hb, hlen1⟩ := generate_loop_length _ _ _ _ _ hloop
        subst hb
        simp only [hloop, msync, Option.some.injEq, Prod.mk.injEq] at hgen
        obtain ⟨hw1, hd1, _⟩ := hgen
        have hdrop : wa.file.drop region1.length = [] := by
          rw [hlen1, hregion, List.drop_length]
        rw [hdrop, List.append_nil] at hw1
        have hfile1 : w1.file.length
            = (size_to_int (dictionary_len (dictionary_new path cap))).toNat
              / sizeof_dict_item := by
          rw [← hw1]
          simp only
          rw [hlen1, hregion, hfile]
        rw [open_map_stable w1 _ (by rw [← hw1]; simp only; rw [hfd1]; exact hfd)
          (by rw [← hw1]; exact hok) (by rw [← hw1]; exact hmmok) hpos hfile1, ← hd1, ← hw1]
        exact ⟨rfl, rfl⟩

theorem size_to_int_len (path : String) (cap : Nat) (hsize : cap * sizeof_dict_item ≤ INT_MAX) :
    size_to_int (dictionary_len (dictionary_new path cap))
      = ((cap * sizeof_dict_item : Nat) : Int) := by
  unfold INT_MAX at hsize
  unfold size_to_int dictionary_len dictionary_new SIZE_MOD
  simp only
  rw [Nat.mod_eq_of_lt (by omega), Nat.mod_eq_of_lt (by omega), if_pos (by omega)]

theorem generate_total (w : World) (path : String) (cap : Nat) (f : List Nat)
    (hfd : w.open_fd ≠ -1) (hft : w.ftruncate_ok = true) (hmm : w.mmap_ok = true)
    (hcap : 0 < cap) (hsize : cap * sizeof_dict_item ≤ INT_MAX)
    (hfile : ∀ item ∈ w.file, item.word.length = WORD_SIZE) (hf : 0 ∉ f) :
    ∃ w1 d1 region, dictionary_generate w (dictionary_new path cap) (some f)
      = some (w1, d1, 1) ∧ d1.base = some region ∧ region.length = cap := by
  have hlen := size_to_int_len path cap hsize
  have hdiv : ((cap * sizeof_dict_item : Nat) : Int).toNat / sizeof_dict_item = cap := by
    rw [Int.toNat_ofNat]
    exact Nat.mul_div_cancel cap (by unfold sizeof_dict_item; omega)
  have hpos : (0 : Int) < ((cap * sizeof_dict_item : Nat) : Int) := by
    unfold sizeof_dict_item
    omega
  have hreglen : (w.file.take cap ++ List.replicate (cap - w.file.length) zero_item).length
      = cap := by
    simp only [List.length_append, List.length_take, List.length_replicate]
    omega
  have hft1 : ftruncate w (size_to_int (dictionary_len (dictionary_new path cap)))
      = some { w with
          file := w.file.take cap ++ List.replicate (cap - w.file.length) zero_item } := by
    unfold ftruncate
    rw [hlen, if_pos ⟨hft, le_of_lt hpos⟩, hdiv]
  have hmm1 : mmap { w with
        file := w.file.take cap ++ List.replicate (cap - w.file.length) zero_item }
      (size_to_int (dictionary_len (dictionary_new path cap)))
      = some (w.file.take cap ++ List.replicate (cap - w.file.length) zero_item) := by
    unfold mmap
    rw [hlen, if_pos ⟨hmm, hpos⟩, hdiv]
    simp only
    rw [List.take_of_length_le (by rw [hreglen])]
  have hmax : ([] ++ (w.file.take cap
      ++ List.replicate (cap - w.file.length) zero_item)).length ≤ INT_MAX := by
    rw [List.nil_append, hreglen]
    unfold sizeof_dict_item at hsize
    omega
  obtain ⟨region1, hloop⟩ := generate_loop_total _ [] f hmax hf (by
    intro item hitem
    rcases List.mem_append.mp hitem with h | h
    · rw [hfile item (List.mem_of_mem_take h)]
      unfold WORD_SIZE
      omega
    · rw [List.eq_of_mem_replicate h]
      simp [zero_item, WORD_SIZE])
  rw [List.nil_append, hreglen, List.length_nil] at hloop
  obtain ⟨region2, hr2, hlen2⟩ := generate_loop_length _ _ _ _ _ hloop
  refine ⟨msync { w with
      file := w.file.take cap ++ List.replicate (cap - w.file.length) zero_item } (some region1),
    { path := path, fd := some w.open_fd, num_items := cap, base := some region1 },
    region1, ?_, rfl, ?_⟩
  · simp only [dictionary_generate, dictionary_open_map, if_neg hfd, hft1, hmm1]
    simp only [dictionary_new, hloop]
  · rw [Option.some.inj hr2, hlen2, hreglen]

/-! ## Lemmas on the bounds of the generated records -/

theorem strlen_le (chunk : List Nat) (l : Nat) (h : strlen (chunk ++ [0]) = some l) :
    l ≤ chunk.length ∧ l = (c_str (chunk ++ [0])).length := by
  induction chunk generalizing l with
  | nil =>
    simp [strlen] at h
    subst h
    simp [c_str]
  | cons c t ih =>
    by_cases hc : c = 0
    · subst hc
      simp [strlen] at h
      subst h
      simp [c_str]
    · simp only [List.cons_append, strlen, if_neg hc, Option.map_eq_some'] at h
      obtain ⟨k, hk, rfl⟩ := h
      obtain ⟨h1, h2⟩ := ih k hk
      refine ⟨by simp only [List.length_cons]; omega, ?_⟩
      simp only [c_str] at h2 ⊢
      simp [List.takeWhile_cons, hc, h2]

theorem c_str_no_nul (s : List Nat) : 0 ∉ c_str s := by
  intro h
  have := List.mem_takeWhile_imp h
  simp at this

theorem fgets_some (f line rest : List Nat) (h : fgets WORD_SIZE f = some (line, rest)) :
    ∃ chunk, line = chunk ++ [0] ∧ chunk.length ≤ 99 := by
  cases f with
  | nil => simp [fgets] at h
  | cons c t =>
    simp only [fgets, Option.some.injEq, Prod.mk.injEq] at h
    exact ⟨_, h.1.symm, (fgets_read_append (WORD_SIZE - 1) (c :: t)).2⟩

theorem write_bounded (f line rest word1 : List Nat) (l : Nat)
    (hfg : fgets WORD_SIZE f = some (line, rest)) (hl : strlen line = some l)
    (hs : strncpy zero_item.word line (size_sub l 1) = some word1) :
    bounded_item { word := word1, len := size_sub l 1 } := by
  obtain ⟨chunk, rfl, hchunk⟩ := fgets_some f line rest hfg
  obtain ⟨hle, hlen⟩ := strlen_le chunk l hl
  unfold strncpy at hs
  split_ifs at hs with hc
  have hzero : zero_item.word.length = 100 := by simp [zero_item, WORD_SIZE]
  have hpos : 1 ≤ l := by
    by_contra h0
    have hl0 : l = 0 := by omega
    rw [hl0, hzero] at hc
    have : size_sub 0 1 = 18446744073709551615 := by decide
    rw [this] at hc
    omega
  have hn : size_sub l 1 = l - 1 := by
    unfold size_sub
    rw [if_pos hpos]
  rw [hn] at hs ⊢
  have hword : word1 = (c_str (chunk ++ [0])).take (l - 1) ++ 0 :: List.replicate (100 - l) 0 := by
    have h1 : l - 1 - l = 0 := by omega
    have h2 : 100 - (l - 1) = (100 - l) + 1 := by omega
    have hzw : zero_item.word = List.replicate 100 0 := rfl
    rw [← Option.some.inj hs, ← hlen, h1, hzw, List.drop_replicate, h2, List.replicate_succ]
    simp
  have htake : ((c_str (chunk ++ [0])).take (l - 1)).length = l - 1 := by
    rw [List.length_take, ← hlen]
    omega
  have hnonul : 0 ∉ (c_str (chunk ++ [0])).take (l - 1) :=
    fun h => c_str_no_nul _ (List.mem_of_mem_take h)
  refine ⟨?_, by simp only; omega, ?_, ?_⟩
  · simp only [hword, List.length_append, htake, List.length_cons, List.length_replicate,
      WORD_SIZE]
    omega
  · simp [hword]
  · simp only [stored_word, hword]
    rw [c_str_append_nul _ _ hnonul, htake]
    omega

theorem bounded_zero_item : bounded_item zero_item := by
  refine ⟨by simp [zero_item], by simp [zero_item], by simp [zero_item, WORD_SIZE], ?_⟩
  rw [stored_word_zero_item]
  simp

theorem generate_loop_fresh_inv (m : Nat) :
    ∀ (pre : List dict_item) (f : List Nat) (b : Option (List dict_item)),
      generate_loop (some (pre ++ fresh_region m)) m pre.length f = some b →
      ∃ suf1, b = some (pre ++ suf1) ∧ suf1.length = m ∧ ∀ item ∈ suf1, bounded_item item := by
  induction m with
  | zero =>
    intro pre f b h
    unfold generate_loop at h
    refine ⟨[], ?_, rfl, by simp⟩
    cases hfg : fgets WORD_SIZE f with
    | none => rw [hfg] at h; simpa [fresh_region] using (Option.some.inj h).symm
    | some p => rw [hfg] at h; simpa [fresh_region] using (Option.some.inj h).symm
  | succ m ih =>
    intro pre f b h
    have hfresh : fresh_region (m + 1) = zero_item :: fresh_region m := by
      simp [fresh_region, List.replicate_succ]
    have hkeep : ∃ suf1, some (pre ++ fresh_region (m + 1)) = some (pre ++ suf1) ∧
        suf1.length = m + 1 ∧ ∀ item ∈ suf1, bounded_item item := by
      refine ⟨fresh_region (m + 1), rfl, by simp [fresh_region], ?_⟩
      intro item hitem
      rw [List.eq_of_mem_replicate hitem]
      exact bounded_zero_item
    unfold generate_loop at h
    cases hfg : fgets WORD_SIZE f with
    | none =>
      rw [hfg] at h
      rw [← Option.some.inj h]
      exact hkeep
    | some p =>
      obtain ⟨line, rest⟩ := p
      rw [hfg] at h
      simp only [hfresh, deref_append] at h
      cases hl : strlen line with
      | none => simp [hl] at h
      | some l =>
        simp only [hl] at h
        cases hs : strncpy zero_item.word line (size_sub l 1) with
        | none => simp [hs] at h
        | some word1 =>
          cases hi : int_incr pre.length with
          | none => simp [hs, hi] at h
          | some i1 =>
            simp only [hs, hi] at h
            have hi1 : i1 = pre.length + 1 := by
              unfold int_incr at hi
              split_ifs at hi
              exact (Option.some.inj hi).symm
            have hset : (pre ++ zero_item :: fresh_region m).set pre.length
                { word := word1, len := size_sub l 1 }
                = (pre ++ [{ word := word1, len := size_sub l 1 }]) ++ fresh_region m := by
              rw [List.set_append_right _ _ (le_refl _)]
              simp
            rw [hset, hi1] at h
            obtain ⟨suf1, hb, hlen, hbound⟩ :=
              ih (pre ++ [{ word := word1, len := size_sub l 1 }]) rest b
                (by simpa using h)
            refine ⟨{ word := word1, len := size_sub l 1 } :: suf1, by simpa using hb,
              by simp [hlen], ?_⟩
            intro item hitem
            rcases List.mem_cons.mp hitem with rfl | hmem
            · exact write_bounded f line rest word1 l hfg hl hs
            · exact hbound item hmem

theorem generate_fresh_some (w : World) (path : String) (cap : Nat) (f : List Nat)
    (w1 : World) (d1 : dict_t) (r : Int) (hfresh : opens_fresh w path cap)
    (hgen : dictionary_generate w (dictionary_new path cap) (some f) = some (w1, d1, r)) :
    ∃ region, has_region d1 region ∧ ∀ item ∈ region, bounded_item item := by
  obtain ⟨hmax, wa, heq⟩ := open_map_new_some w path cap _ hfresh
  have hlen : (fresh_region cap).length = cap := by simp [fresh_region]
  rw [hlen] at hmax
  simp only [dictionary_generate, heq] at hgen
  cases hloop : generate_loop (some (fresh_region cap)) cap 0 f with
  | none => simp [hloop] at hgen
  | some b =>
    obtain ⟨suf1, hb, hlen1, hbound⟩ := generate_loop_fresh_inv cap [] f b (by simpa using hloop)
    simp only [hloop, Option.some.injEq, Prod.mk.injEq] at hgen
    obtain ⟨_, hd1, _⟩ := hgen
    refine ⟨suf1, ⟨?_, ?_, ?_⟩, hbound⟩
    · rw [← hd1, hb]; rfl
    · rw [← hd1, hlen1]
    · rw [← hd1]; exact hmax

theorem generate_fresh_total (w : World) (path : String) (cap : Nat) (f : List Nat)
    (hfresh : opens_fresh w path cap) (hf : 0 ∉ f) :
    ∃ w1 d1, dictionary_generate w (dictionary_new path cap) (some f) = some (w1, d1, 1) := by
  obtain ⟨hmax, wa, heq⟩ := open_map_new_some w path cap _ hfresh
  have hlen : (fresh_region cap).length = cap := by simp [fresh_region]
  obtain ⟨region1, hloop⟩ := generate_loop_total (fresh_region cap) [] f
    (by simpa using hmax) hf (by
      intro item hitem
      rw [List.eq_of_mem_replicate hitem]
      simp [zero_item, WORD_SIZE])
  simp only [List.nil_append, hlen, List.length_nil] at hloop
  refine ⟨msync wa (some region1),
    { path := path, fd := some w.open_fd, num_items := cap, base := some region1 }, ?_⟩
  simp only [dictionary_generate, heq, hloop]

theorem bounded_terminated (region : List dict_item)
    (h : ∀ item ∈ region, bounded_item item) : terminated region :=
  fun item hitem => (h item hitem).2.2.1

/-! ## Lemmas on generating over a prior region -/

theorem strcmp_zero (a q : List Nat) (hq : 0 ∉ q) (h : strcmp a (q ++ [0]) = some 0) :
    c_str a = q := by
  induction a generalizing q with
  | nil => simp [strcmp] at h
  | cons x s ih =>
    cases q with
    | nil =>
      by_cases hx : x = 0
      · simp [c_str, List.takeWhile_cons, hx]
      · simp only [List.nil_append, strcmp, ne_eq, hx, not_false_eq_true, if_true,
          Option.some.injEq] at h
        omega
    | cons y t =>
      have hy : y ≠ 0 := fun hy0 => hq (by simp [hy0])
      have ht : 0 ∉ t := fun ht0 => hq (by simp [ht0])
      by_cases hxy : x = y
      · subst hxy
        simp only [List.cons_append, strcmp, ne_eq, not_true_eq_false, if_false, hy] at h
        simp [c_str, List.takeWhile_cons, hy] at ih ⊢
        exact ih t ht h
      · simp only [List.cons_append, strcmp, ne_eq, hxy, not_false_eq_true, if_true,
          Option.some.injEq] at h
        omega

theorem exists_loop_some (base : Option (List dict_item)) (word : List Nat) (left : Nat) :
    ∀ (j i : Nat), exists_loop base word left j = some (some i) →
      ∃ item, deref base i = some item ∧ strcmp item.word (word ++ [0]) = some 0 := by
  induction left with
  | zero =>
    intro j i h
    simp [exists_loop] at h
  | succ left ih =>
    intro j i h
    unfold exists_loop at h
    cases hd : deref base j with
    | none => simp [hd] at h
    | some item =>
      simp only [hd] at h
      cases hs : strcmp item.word (word ++ [0]) with
      | none => simp [hs] at h
      | some r =>
        simp only [hs] at h
        by_cases hr : r = 0
        · rw [if_pos hr] at h
          have hji : j = i := by simpa using h
          subst hji
          subst hr
          exact ⟨item, hd, hs⟩
        · rw [if_neg hr] at h
          cases hi : int_incr j with
          | none => simp [hi] at h
          | some j1 =>
            simp only [hi] at h
            exact ih j1 i h

theorem c_str_append (l t : List Nat) (hl : 0 ∉ l) : c_str (l ++ t) = l ++ c_str t := by
  unfold c_str
  rw [List.takeWhile_append_of_pos]
  intro a ha
  have : a ≠ 0 := fun h => hl (h ▸ ha)
  simpa using this

theorem c_str_drop (xs : List Nat) (n : Nat) (hn : n ≤ (c_str xs).length) :
    c_str (xs.drop n) = (c_str xs).drop n := by
  induction xs generalizing n with
  | nil => simp [c_str]
  | cons x s ih =>
    cases n with
    | zero => simp
    | succ n =>
      by_cases hx : x = 0
      · simp [c_str, List.takeWhile_cons, hx] at hn
      · simp only [c_str, List.takeWhile_cons] at hn ih ⊢
        have hx1 : (x != 0) = true := by simpa using hx
        simp only [hx1, if_true, List.length_cons] at hn ⊢
        simp only [List.drop_succ_cons]
        exact ih n (by omega)

theorem store_lines_length (lines : List (List Nat)) (prior : List dict_item) :
    (store_lines lines prior).length = prior.length := by
  induction lines generalizing prior with
  | nil => simp [store_lines]
  | cons l ls ih =>
    cases prior with
    | nil => simp [store_lines]
    | cons item rest => simp [store_lines, ih rest]

theorem store_lines_getElem_line (lines : List (List Nat)) (prior : List dict_item) (i : Nat)
    (l : List Nat) (old : dict_item) (hl : lines[i]? = some l) (hold : prior[i]? = some old) :
    (store_lines lines prior)[i]?
      = some (dict_item.mk (l ++ old.word.drop l.length) l.length) := by
  induction lines generalizing prior i with
  | nil => simp at hl
  | cons l0 ls ih =>
    cases prior with
    | nil => simp at hold
    | cons item rest =>
      cases i with
      | zero =>
        simp only [List.getElem?_cons_zero, Option.some.injEq] at hl hold
        subst hl
        subst hold
        simp [store_lines]
      | succ i =>
        simp only [List.getElem?_cons_succ] at hl hold
        simp only [store_lines, List.getElem?_cons_succ]
        exact ih rest i hl hold

theorem store_lines_getElem_rest (lines : List (List Nat)) (prior : List dict_item) (i : Nat)
    (hi : lines.length ≤ i) : (store_lines lines prior)[i]? = prior[i]? := by
  induction lines generalizing prior i with
  | nil => simp [store_lines]
  | cons l0 ls ih =>
    cases prior with
    | nil => simp [store_lines]
    | cons item rest =>
      cases i with
      | zero => simp at hi
      | succ i =>
        simp only [store_lines, List.getElem?_cons_succ]
        exact ih rest i (by simpa using hi)

theorem generate_of_loop (w : World) (path : String) (cap : Nat) (region0 region1 : List dict_item)
    (f : List Nat) (hopen : opens_on w path cap region0) (hlen0 : region0.length = cap)
    (hlen1 : region1.length = cap)
    (hloop : generate_loop (some region0) cap 0 f = some (some region1)) :
    ∃ w1 d1, dictionary_generate w (dictionary_new path cap) (some f) = some (w1, d1, 1) ∧
      has_region d1 region1 := by
  obtain ⟨hmax, wa, heq⟩ := open_map_new_some w path cap _ hopen
  refine ⟨msync wa (some region1),
    { path := path, fd := some w.open_fd, num_items := cap, base := some region1 }, ?_,
    rfl, hlen1, by rw [← hlen0]; exact hmax⟩
  simp only [dictionary_generate, heq, hloop]

/-! ## Lemmas on a final line without a line feed -/

theorem fgets_read_all (l : List Nat) (k : Nat) (hnl : 10 ∉ l) (hk : l.length ≤ k) :
    fgets_read k l = (l, []) := by
  induction l generalizing k with
  | nil => cases k <;> simp [fgets_read]
  | cons c l ih =>
    have hc : c ≠ 10 := fun h => hnl (by simp [h])
    have hl : 10 ∉ l := fun h => hnl (by simp [h])
    cases k with
    | zero => simp at hk
    | succ k => simp [fgets_read, hc, ih k hl (by simpa using hk)]

theorem fgets_last (last : List Nat) (hne : 1 ≤ last.length) (hnl : 10 ∉ last)
    (hlen : last.length ≤ 99) : fgets WORD_SIZE last = some (last ++ [0], []) := by
  have h := fgets_read_all last (WORD_SIZE - 1) hnl (by unfold WORD_SIZE; omega)
  cases last with
  | nil => simp at hne
  | cons c t => simp [fgets, h]

theorem strncpy_front (dst s : List Nat) (n : Nat) (hs : 0 ∉ s) (hn : n ≤ s.length)
    (hdst : n ≤ dst.length) : strncpy dst (s ++ [0]) n = some (s.take n ++ dst.drop n) := by
  have hc : c_str (s ++ [0]) = s := c_str_append_nul s [] hs
  unfold strncpy
  rw [if_pos ⟨hdst, Or.inl (by simp)⟩, hc, Nat.sub_eq_zero_of_le hn]
  simp

theorem generate_loop_lines_last (lines : List (List Nat)) (last : List Nat)
    (suf pre : List dict_item) (hlen : (pre ++ suf).length ≤ INT_MAX)
    (hgood : ∀ l ∈ lines, good_line l) (hword : ∀ item ∈ suf, 98 ≤ item.word.length)
    (hm1 : 1 ≤ last.length) (hm99 : last.length ≤ 99) (h0 : 0 ∉ last) (h10 : 10 ∉ last) :
    generate_loop (some (pre ++ suf)) suf.length pre.length (source_of_lines lines ++ last)
      = some (some (pre ++ store_lines (lines ++ [last.take (last.length - 1)]) suf)) := by
  induction lines generalizing suf pre with
  | nil =>
    cases suf with
    | nil =>
      unfold generate_loop
      simp [source_of_lines, fgets_last last hm1 h10 hm99, store_lines]
    | cons item rest =>
      have hlen1 : pre.length + (rest.length + 1) ≤ INT_MAX := by simpa using hlen
      have hi : int_incr pre.length = some (pre.length + 1) := by
        unfold int_incr; rw [if_pos (by omega)]
      have hitem := hword item (List.mem_cons_self _ _)
      have hsub : size_sub last.length 1 = last.length - 1 := by
        unfold size_sub; rw [if_pos hm1]
      have hcopy := strncpy_front item.word last (last.length - 1) h0 (by omega) (by omega)
      have hset : (pre ++ item :: rest).set pre.length
          (dict_item.mk (last.take (last.length - 1) ++ item.word.drop (last.length - 1))
            (last.length - 1))
          = pre ++ dict_item.mk (last.take (last.length - 1) ++ item.word.drop (last.length - 1))
            (last.length - 1) :: rest := by
        rw [List.set_append_right _ _ (le_refl _)]
        simp
      have hnext : ∀ (base : Option (List dict_item)) (left i : Nat),
          generate_loop base left i [] = some base := by
        intro base left i
        unfold generate_loop
        simp [fgets]
      have htake : (last.take (last.length - 1)).length = last.length - 1 := by
        rw [List.length_take]; omega
      unfold generate_loop
      simp only [source_of_lines, List.nil_append, fgets_last last hm1 h10 hm99,
        List.length_cons, strlen_append_nul last [] h0, deref_append, hsub, hcopy, hi, hset,
        hnext, store_lines, htake]
  | cons l ls ih =>
    obtain ⟨hl98, hl0, hl10⟩ := hgood l (List.mem_cons_self _ _)
    have hls : ∀ x ∈ ls, good_line x := fun x hx => hgood x (List.mem_cons_of_mem _ hx)
    have hsrc : source_of_lines (l :: ls) ++ last = l ++ 10 :: (source_of_lines ls ++ last) := by
      simp [source_of_lines]
    rw [hsrc]
    cases suf with
    | nil =>
      unfold generate_loop
      simp only [fgets_line l _ hl10 hl98, store_lines, List.length_nil, List.cons_append]
    | cons item rest =>
      have hlen1 : pre.length + (rest.length + 1) ≤ INT_MAX := by simpa using hlen
      have hi : int_incr pre.length = some (pre.length + 1) := by
        unfold int_incr; rw [if_pos (by omega)]
      have hitem : l.length ≤ item.word.length := by
        have := hword item (List.mem_cons_self _ _)
        omega
      have hset : (pre ++ item :: rest).set pre.length
          { word := l ++ item.word.drop l.length, len := l.length }
          = (pre ++ [{ word := l ++ item.word.drop l.length, len := l.length }]) ++ rest := by
        rw [List.set_append_right _ _ (le_refl _)]
        simp
      have hrec := ih rest (pre ++ [{ word := l ++ item.word.drop l.length, len := l.length }])
        (by simpa using hlen) hls (fun it hit => hword it (List.mem_cons_of_mem _ hit))
      simp only [List.length_append, List.length_singleton] at hrec
      unfold generate_loop
      simp only [fgets_line l _ hl10 hl98, List.length_cons, strlen_line l hl0,
        deref_append, size_sub_succ l.length, strncpy_line item.word l hl0 hitem, hi,
        hset, hrec, store_lines, List.cons_append]
      simp

/-- On a fresh region, whenever `dictionary_generate` returns, every record has
`len` at most 99, a `word` field of 100 bytes that holds a NUL and a stored word of
at most 99 bytes; and for a source text free of NUL the call returns. -/
theorem generate_text_within_word_field (w : World) (path : String) (cap : Nat) (f : List Nat)
    (hfresh : opens_fresh w path cap) :
    (∀ w1 d1 r, dictionary_generate w (dictionary_new path cap) (some f) = some (w1, d1, r) →
      ∃ region, d1.base = some region ∧ region.length = cap ∧
        ∀ item ∈ region, item.len ≤ 99 ∧ item.word.length = WORD_SIZE ∧ 0 ∈ item.word ∧
          (stored_word item).length ≤ 99) ∧
    (0 ∉ f →
      ∃ w1 d1, dictionary_generate w (dictionary_new path cap) (some f) = some (w1, d1, 1)) := by
  refine ⟨?_, generate_fresh_total w path cap f hfresh⟩
  intro w1 d1 r hgen
  obtain ⟨region, hreg, hbound⟩ := generate_fresh_some w path cap f w1 d1 r hfresh hgen
  have hnum : d1.num_items = cap := by
    obtain ⟨_, wa, heq⟩ := open_map_new_some w path cap _ hfresh
    simp only [dictionary_generate, heq] at hgen
    split at hgen
    · exact Option.noConfusion hgen
    · simp only [Option.some.injEq, Prod.mk.injEq] at hgen
      rw [← hgen.2.1]
  refine ⟨region, hreg.1, by rw [hreg.2.1, hnum], ?_⟩
  intro item hitem
  obtain ⟨h1, h2, h3, h4⟩ := hbound item hitem
  exact ⟨by omega, h1, h3, by omega⟩

/-! ## The claims -/

/-- C1: on a dictionary state whose word fields hold C strings, and for a query
string, `dictionary_exists` returns a result; it returns the word field of record
`i` exactly when `i` is the lowest index whose stored word equals the whole
query, and NULL exactly when no stored word equals the query. -/
theorem dictionary_exists_lowest_index (dict : dict_t) (region : List dict_item)
    (word : List Nat) (hreg : has_region dict region) (hnul : terminated region)
    (hword : 0 ∉ word) :
    (∃ r, dictionary_exists dict word = some r) ∧
    (∀ i, dictionary_exists dict word = some (some i) ↔
      (i < dict.num_items ∧ (∃ item, region[i]? = some item ∧ stored_word item = word) ∧
        ∀ j, j < i → ∀ item, region[j]? = some item → stored_word item ≠ word)) ∧
    (dictionary_exists dict word = some none ↔
      ∀ i, i < dict.num_items → ∀ item, region[i]? = some item → stored_word item ≠ word) := by
  have hloop := dictionary_exists_eq_first_match dict region word hreg hnul hword
  obtain ⟨hbase, hlen, hmax⟩ := hreg
  refine ⟨⟨_, hloop⟩, ?_, ?_⟩
  · intro i
    rw [hloop, Option.some.injEq, first_match_some]
    constructor
    · rintro ⟨k, hk, ⟨item, hitem, hw⟩, hbefore⟩
      have hki : i = k := by omega
      subst hki
      have hlt : i < region.length := by
        by_contra hge
        rw [List.getElem?_eq_none (by omega)] at hitem
        exact Option.noConfusion hitem
      exact ⟨by omega, ⟨item, hitem, hw⟩, hbefore⟩
    · rintro ⟨_, hmatch, hbefore⟩
      exact ⟨i, by omega, hmatch, hbefore⟩
  · rw [hloop, Option.some.injEq, first_match_none]
    constructor
    · intro h i _ item hitem
      exact h item (List.getElem?_mem hitem)
    · intro h item hmem
      obtain ⟨i, hi, hget⟩ := List.getElem_of_mem hmem
      exact h i (by omega) item (by rw [List.getElem?_eq_getElem hi, hget])

/-- C1, at the sample state: the query bee. -/
theorem dictionary_exists_lowest_index_witness :
    has_region sample_dict sample_region ∧ terminated sample_region ∧ 0 ∉ [98, 101, 101] ∧
    ((∃ r, dictionary_exists sample_dict [98, 101, 101] = some r) ∧
    (∀ i, dictionary_exists sample_dict [98, 101, 101] = some (some i) ↔
      (i < sample_dict.num_items ∧
        (∃ item, sample_region[i]? = some item ∧ stored_word item = [98, 101, 101]) ∧
        ∀ j, j < i → ∀ item, sample_region[j]? = some item →
          stored_word item ≠ [98, 101, 101])) ∧
    (dictionary_exists sample_dict [98, 101, 101] = some none ↔
      ∀ i, i < sample_dict.num_items → ∀ item, sample_region[i]? = some item →
        stored_word item ≠ [98, 101, 101])) :=
  ⟨⟨rfl, rfl, by decide⟩, by unfold terminated; decide, by decide,
    dictionary_exists_lowest_index sample_dict sample_region [98, 101, 101]
      ⟨rfl, rfl, by decide⟩ (by unfold terminated; decide) (by decide)⟩

/-- C2, at the failing input: capacity 2 and one line of 99 bytes `a`. The call
returns 1, record 0 holds only the first 98 bytes with `len` 98, and record 1 is
written from the left-over line feed. -/
theorem generate_line_of_99_bytes :
    (dictionary_generate fresh_world (dictionary_new "words.db" 2)
        (some (source_of_lines [List.replicate 99 97]))).map
      (fun r => (r.2.2, r.2.1.base.map
        (fun region => region.map (fun item => (stored_word item, item.len)))))
      = some (1, some [(List.replicate 98 97, 98), ([], 0)]) ∧
    (List.replicate 98 97, 98) ≠ (List.replicate 99 97, 99) := by
  decide

/-- C3, as stated, fails: capacity 1 and the two lines of 100 bytes `a` and of
`b`. Record 0 holds 98 bytes and `len` 98, not line 0 and its length 100. -/
theorem generate_truncates_long_line :
    (dictionary_generate fresh_world (dictionary_new "words.db" 1)
        (some (source_of_lines [List.replicate 100 97, [98]]))).map
      (fun r => (r.2.2, r.2.1.base.map
        (fun region => region.map (fun item => (stored_word item, item.len)))))
      = some (1, some [(List.replicate 98 97, 98)]) ∧
    (List.replicate 98 97, 98) ≠ (List.replicate 100 97, 100) := by
  decide

/-- C3, amended: from a source of more than `cap` lines, each of at most 98 bytes
and free of NUL, generating into a fresh region returns 1 and leaves exactly
`cap` records, record `i` holding line `i` and its length; a source with the
same first `cap` lines leaves the same records. -/
theorem generate_stops_at_capacity (w : World) (path : String) (cap : Nat)
    (lines : List (List Nat)) (hfresh : opens_fresh w path cap)
    (hgood : ∀ l ∈ lines, good_line l) (hk : cap < lines.length) :
    ∃ w1 d1 region,
      dictionary_generate w (dictionary_new path cap) (some (source_of_lines lines))
        = some (w1, d1, 1) ∧
      d1.base = some region ∧ region.length = cap ∧
      (∀ i l, i < cap → lines[i]? = some l →
        ∃ item, region[i]? = some item ∧ stored_word item = l ∧ item.len = l.length) ∧
      (∀ lines2, (∀ l ∈ lines2, good_line l) → lines2.take cap = lines.take cap →
        ∃ w2 d2, dictionary_generate w (dictionary_new path cap)
            (some (source_of_lines lines2)) = some (w2, d2, 1) ∧ d2.base = some region) := by
  obtain ⟨w1, d1, hgen, hbase, hlen, _⟩ := generate_fresh w path cap lines hfresh hgood
  have hreg : gen_region cap lines = (lines.take cap).map item_of_line := by
    simp [gen_region, fresh_region, Nat.sub_eq_zero_of_le (Nat.le_of_lt hk)]
  refine ⟨w1, d1, gen_region cap lines, hgen, hbase, gen_region_length cap lines, ?_, ?_⟩
  · intro i l hi hl
    obtain ⟨h98, h0, _⟩ := hgood l (List.getElem?_mem hl)
    refine ⟨item_of_line l, ?_, stored_word_item_of_line l h0 (by unfold WORD_SIZE; omega), rfl⟩
    rw [hreg, List.getElem?_map, List.getElem?_take_of_lt hi, hl]
    rfl
  · intro lines2 hgood2 htake
    obtain ⟨w2, d2, hgen2, hbase2, _, _⟩ := generate_fresh w path cap lines2 hfresh hgood2
    refine ⟨w2, d2, hgen2, ?_⟩
    have hlen2 : cap ≤ lines2.length := by
      have h1 : (lines2.take cap).length = (lines.take cap).length := by rw [htake]
      simp only [List.length_take] at h1
      omega
    rw [hbase2, hreg]
    simp [gen_region, fresh_region, Nat.sub_eq_zero_of_le hlen2, htake]

/-- C3, amended, at capacity 2 and the lines a, bb, ccc. -/
theorem generate_stops_at_capacity_witness :
    opens_fresh fresh_world "words.db" 2 ∧
    (∀ l ∈ [[97], [98, 98], [99, 99, 99]], good_line l) ∧ 2 < [[97], [98, 98], [99, 99, 99]].length ∧
    ∃ w1 d1 region,
      dictionary_generate fresh_world (dictionary_new "words.db" 2)
        (some (source_of_lines [[97], [98, 98], [99, 99, 99]])) = some (w1, d1, 1) ∧
      d1.base = some region ∧ region.length = 2 ∧
      (∀ i l, i < 2 → [[97], [98, 98], [99, 99, 99]][i]? = some l →
        ∃ item, region[i]? = some item ∧ stored_word item = l ∧ item.len = l.length) ∧
      (∀ lines2, (∀ l ∈ lines2, good_line l) →
        lines2.take 2 = [[97], [98, 98], [99, 99, 99]].take 2 →
        ∃ w2 d2, dictionary_generate fresh_world (dictionary_new "words.db" 2)
            (some (source_of_lines lines2)) = some (w2, d2, 1) ∧ d2.base = some region) :=
  ⟨by unfold opens_fresh; decide, by unfold good_line; decide, by decide,
    generate_stops_at_capacity fresh_world "words.db" 2 [[97], [98, 98], [99, 99, 99]]
      (by unfold opens_fresh; decide) (by unfold good_line; decide) (by decide)⟩

/-- C4, as stated, fails: capacity 1 and one line of 100 bytes `a`. The query
equal to that line is not found. -/
theorem exists_misses_long_line :
    (dictionary_generate fresh_world (dictionary_new "words.db" 1)
        (some (source_of_lines [List.replicate 100 97]))).map
      (fun r => (r.2.2, dictionary_exists r.2.1 (List.replicate 100 97)))
      = some (1, some none) ∧
    List.replicate 100 97 ∈ [List.replicate 100 97].take (min 1 1) ∧
    List.replicate 100 97 ≠ [] := by
  decide

/-- C4, amended: after generating into a fresh region from lines of at most 98
bytes each, free of NUL, `dictionary_exists` on a non-empty query string finds a
record whose stored word is the query when the query is one of the first
`min k cap` lines, and returns NULL when it is none of them. -/
theorem exists_after_generate (w : World) (path : String) (cap : Nat)
    (lines : List (List Nat)) (word : List Nat) (hfresh : opens_fresh w path cap)
    (hgood : ∀ l ∈ lines, good_line l) (hne : word ≠ []) (hword : 0 ∉ word) :
    ∃ w1 d1,
      dictionary_generate w (dictionary_new path cap) (some (source_of_lines lines))
        = some (w1, d1, 1) ∧
      (word ∈ lines.take (min lines.length cap) →
        ∃ i item, dictionary_exists d1 word = some (some i) ∧
          deref d1.base i = some item ∧ stored_word item = word) ∧
      (word ∉ lines.take (min lines.length cap) → dictionary_exists d1 word = some none) := by
  obtain ⟨w1, d1, hgen, hreg⟩ := generate_fresh w path cap lines hfresh hgood
  have hex := dictionary_exists_eq_first_match d1 (gen_region cap lines) word hreg
    (gen_region_terminated cap lines hgood) hword
  have htake : lines.take (min lines.length cap) = lines.take cap := by
    rcases Nat.le_total lines.length cap with h | h
    · rw [Nat.min_eq_left h, List.take_of_length_le h, List.take_of_length_le (le_refl _)]
    · rw [Nat.min_eq_right h]
  rw [htake]
  refine ⟨w1, d1, hgen, ?_, ?_⟩
  · intro hmem
    cases hfm : first_match word (gen_region cap lines) 0 with
    | none =>
      exfalso
      rw [first_match_none] at hfm
      obtain ⟨_, h0, _⟩ := hgood word (List.mem_of_mem_take hmem)
      have h98 := (hgood word (List.mem_of_mem_take hmem)).1
      refine hfm (item_of_line word) ?_
        (stored_word_item_of_line word h0 (by unfold WORD_SIZE; omega))
      unfold gen_region
      exact List.mem_append_left _ (List.mem_map_of_mem _ hmem)
    | some i =>
      obtain ⟨k, hk, ⟨item, hitem, hstored⟩, _⟩ := (first_match_some _ _ _ _).mp hfm
      have hki : i = k := by omega
      subst hki
      refine ⟨i, item, by rw [hex, hfm], ?_, hstored⟩
      rw [hreg.1]
      exact hitem
  · intro hnot
    rw [hex]
    congr 1
    rw [first_match_none]
    intro item hitem
    rcases gen_region_mem cap lines item hitem with ⟨l, hl, rfl⟩ | rfl
    · obtain ⟨h98, h0, _⟩ := hgood l (List.mem_of_mem_take hl)
      rw [stored_word_item_of_line l h0 (by unfold WORD_SIZE; omega)]
      intro heq
      exact hnot (heq ▸ hl)
    · rw [stored_word_zero_item]
      exact fun h => hne h.symm

/-- C4, amended, at capacity 3, the lines a, bb, ccc and the query bb. -/
theorem exists_after_generate_witness :
    opens_fresh fresh_world "words.db" 3 ∧
    (∀ l ∈ [[97], [98, 98], [99, 99, 99]], good_line l) ∧ [98, 98] ≠ [] ∧ 0 ∉ [98, 98] ∧
    ∃ w1 d1,
      dictionary_generate fresh_world (dictionary_new "words.db" 3)
        (some (source_of_lines [[97], [98, 98], [99, 99, 99]])) = some (w1, d1, 1) ∧
      ([98, 98] ∈ [[97], [98, 98], [99, 99, 99]].take
          (min [[97], [98, 98], [99, 99, 99]].length 3) →
        ∃ i item, dictionary_exists d1 [98, 98] = some (some i) ∧
          deref d1.base i = some item ∧ stored_word item = [98, 98]) ∧
      ([98, 98] ∉ [[97], [98, 98], [99, 99, 99]].take
          (min [[97], [98, 98], [99, 99, 99]].length 3) →
        dictionary_exists d1 [98, 98] = some none) :=
  ⟨by unfold opens_fresh; decide, by unfold good_line; decide, by decide, by decide,
    exists_after_generate fresh_world "words.db" 3 [[97], [98, 98], [99, 99, 99]] [98, 98]
      (by unfold opens_fresh; decide) (by unfold good_line; decide) (by decide) (by decide)⟩

/-- C5: `dictionary_smaller_than` returns the number of records whose `len` is
positive and below `n`; equivalently it counts, among the records of non-zero
`len` only, those with `len < n`. -/
theorem dictionary_smaller_than_count (dict : dict_t) (region : List dict_item) (n : Nat)
    (hreg : has_region dict region) :
    dictionary_smaller_than dict n
        = some (region.countP (fun item => decide (0 < item.len ∧ item.len < n))) ∧
    dictionary_smaller_than dict n
        = some ((region.filter (fun item => decide (item.len ≠ 0))).countP
            (fun item => decide (item.len < n))) := by
  obtain ⟨hbase, hlen, hmax⟩ := hreg
  have hloop : dictionary_smaller_than dict n = some
      (region.countP (fun item => decide (item.len < n) && decide (item.len ≠ 0))) := by
    unfold dictionary_smaller_than
    rw [hbase, ← hlen]
    exact count_loop_region _ region (by omega)
  constructor
  · rw [hloop]
    congr 2
    funext item
    rw [Bool.eq_iff_iff]
    simp only [Bool.and_eq_true, decide_eq_true_eq]
    omega
  · rw [hloop, List.countP_filter]

/-- C5, at the sample state with `n = 4`. -/
theorem dictionary_smaller_than_count_witness :
    has_region sample_dict sample_region ∧
    (dictionary_smaller_than sample_dict 4
        = some (sample_region.countP (fun item => decide (0 < item.len ∧ item.len < 4))) ∧
    dictionary_smaller_than sample_dict 4
        = some ((sample_region.filter (fun item => decide (item.len ≠ 0))).countP
            (fun item => decide (item.len < 4)))) :=
  ⟨⟨rfl, rfl, by decide⟩,
    dictionary_smaller_than_count sample_dict sample_region 4 ⟨rfl, rfl, by decide⟩⟩

/-- C6: `dictionary_equal_to` returns the number of records whose `len` is `n`,
zero-length records included: for `n = 0` it is the number of records of `len` 0. -/
theorem dictionary_equal_to_count (dict : dict_t) (region : List dict_item) (n : Nat)
    (hreg : has_region dict region) :
    dictionary_equal_to dict n = some (region.countP (fun item => decide (item.len = n))) ∧
    dictionary_equal_to dict 0 = some (region.countP (fun item => decide (item.len = 0))) := by
  obtain ⟨hbase, hlen, hmax⟩ := hreg
  have hloop : ∀ m, dictionary_equal_to dict m
      = some (region.countP (fun item => decide (item.len = m))) := by
    intro m
    unfold dictionary_equal_to
    rw [hbase, ← hlen]
    exact count_loop_region _ region (by omega)
  exact ⟨hloop n, hloop 0⟩

/-- C6, at the sample state with `n = 3`. -/
theorem dictionary_equal_to_count_witness :
    has_region sample_dict sample_region ∧
    (dictionary_equal_to sample_dict 3
        = some (sample_region.countP (fun item => decide (item.len = 3))) ∧
    dictionary_equal_to sample_dict 0
        = some (sample_region.countP (fun item => decide (item.len = 0)))) :=
  ⟨⟨rfl, rfl, by decide⟩,
    dictionary_equal_to_count sample_dict sample_region 3 ⟨rfl, rfl, by decide⟩⟩

/-- C7: `dictionary_larger_than` returns the number of records whose `len` is
strictly greater than `n`; no record of `len` 0 is among them. -/
theorem dictionary_larger_than_count (dict : dict_t) (region : List dict_item) (n : Nat)
    (hreg : has_region dict region) :
    dictionary_larger_than dict n = some (region.countP (fun item => decide (item.len > n))) ∧
    dictionary_larger_than dict n
        = some ((region.filter (fun item => decide (item.len ≠ 0))).countP
            (fun item => decide (item.len > n))) := by
  obtain ⟨hbase, hlen, hmax⟩ := hreg
  have hloop : dictionary_larger_than dict n
      = some (region.countP (fun item => decide (item.len > n))) := by
    unfold dictionary_larger_than
    rw [hbase, ← hlen]
    exact count_loop_region _ region (by omega)
  constructor
  · exact hloop
  · rw [hloop, List.countP_filter]
    congr 2
    funext item
    rw [Bool.eq_iff_iff]
    simp only [Bool.and_eq_true, decide_eq_true_eq]
    omega

/-- C7, at the sample state with `n = 3`. -/
theorem dictionary_larger_than_count_witness :
    has_region sample_dict sample_region ∧
    (dictionary_larger_than sample_dict 3
        = some (sample_region.countP (fun item => decide (item.len > 3))) ∧
    dictionary_larger_than sample_dict 3
        = some ((sample_region.filter (fun item => decide (item.len ≠ 0))).countP
            (fun item => decide (item.len > 3)))) :=
  ⟨⟨rfl, rfl, by decide⟩,
    dictionary_larger_than_count sample_dict sample_region 3 ⟨rfl, rfl, by decide⟩⟩

/-- C8: the three counts are defined, and their sum is the number of records of
positive `len` when `n ≥ 1`, and `num_items` when `n = 0`. -/
theorem count_sum_partition (dict : dict_t) (region : List dict_item) (n : Nat)
    (hreg : has_region dict region) :
    ∃ a b c, dictionary_larger_than dict n = some a ∧ dictionary_smaller_than dict n = some b ∧
      dictionary_equal_to dict n = some c ∧
      (1 ≤ n → a + b + c = region.countP (fun item => decide (0 < item.len))) ∧
      (n = 0 → a + b + c = dict.num_items) := by
  obtain ⟨hbase, hlen, hmax⟩ := hreg
  refine ⟨region.countP (fun item => decide (item.len > n)),
    region.countP (fun item => decide (item.len < n) && decide (item.len ≠ 0)),
    region.countP (fun item => decide (item.len = n)), ?_, ?_, ?_, ?_, ?_⟩
  · unfold dictionary_larger_than
    rw [hbase, ← hlen]
    exact count_loop_region _ region (by omega)
  · unfold dictionary_smaller_than
    rw [hbase, ← hlen]
    exact count_loop_region _ region (by omega)
  · unfold dictionary_equal_to
    rw [hbase, ← hlen]
    exact count_loop_region _ region (by omega)
  · intro hn
    exact count_partition n hn region
  · intro hn
    subst hn
    rw [← hlen]
    exact count_partition_zero region

/-- C8, at the sample state with `n = 3`. -/
theorem count_sum_partition_witness :
    has_region sample_dict sample_region ∧
    ∃ a b c, dictionary_larger_than sample_dict 3 = some a ∧
      dictionary_smaller_than sample_dict 3 = some b ∧
      dictionary_equal_to sample_dict 3 = some c ∧
      (1 ≤ 3 → a + b + c = sample_region.countP (fun item => decide (0 < item.len))) ∧
      (3 = 0 → a + b + c = sample_dict.num_items) :=
  ⟨⟨rfl, rfl, by decide⟩,
    count_sum_partition sample_dict sample_region 3 ⟨rfl, rfl, by decide⟩⟩

/-- C9: whenever `dictionary_generate` returns, closing and then loading with the
same path and capacity gives the same record array, so the four queries return
the same results for every argument; and for a source text free of NUL, a
capacity whose byte size is positive and fits `int`, and system calls that
succeed, `dictionary_generate` does return, with 1 and `capacity` records. -/
theorem generate_close_load_roundtrip (w : World) (path : String) (cap : Nat)
    (input : Option (List Nat)) :
    (∀ w1 d1 r, dictionary_generate w (dictionary_new path cap) input = some (w1, d1, r) →
      (dictionary_load (dictionary_close w1 d1) (dictionary_new path cap)).2.1.base = d1.base ∧
      ∀ word n,
        dictionary_exists (dictionary_load (dictionary_close w1 d1)
          (dictionary_new path cap)).2.1 word = dictionary_exists d1 word ∧
        dictionary_larger_than (dictionary_load (dictionary_close w1 d1)
          (dictionary_new path cap)).2.1 n = dictionary_larger_than d1 n ∧
        dictionary_smaller_than (dictionary_load (dictionary_close w1 d1)
          (dictionary_new path cap)).2.1 n = dictionary_smaller_than d1 n ∧
        dictionary_equal_to (dictionary_load (dictionary_close w1 d1)
          (dictionary_new path cap)).2.1 n = dictionary_equal_to d1 n) ∧
    (∀ f, input = some f → 0 ∉ f → w.open_fd ≠ -1 → w.ftruncate_ok = true →
      w.mmap_ok = true → 0 < cap → cap * sizeof_dict_item ≤ INT_MAX →
      (∀ item ∈ w.file, item.word.length = WORD_SIZE) →
      ∃ w1 d1 region, dictionary_generate w (dictionary_new path cap) input = some (w1, d1, 1) ∧
        d1.base = some region ∧ region.length = cap) := by
  constructor
  · intro w1 d1 r hgen
    obtain ⟨hbase, hnum⟩ := roundtrip_base w path cap input w1 d1 r hgen
    refine ⟨hbase, fun word n => ?_⟩
    simp only [dictionary_exists, dictionary_larger_than, dictionary_smaller_than,
      dictionary_equal_to, hbase, hnum, and_self]
  · intro f hin hf hfd hft hmm hcap hsize hfile
    subst hin
    exact generate_total w path cap f hfd hft hmm hcap hsize hfile hf

/-- C9, at capacity 5 and the lines apple, bee, cat: after the reload the three
words are found, two records have length 3, one is longer than 3 and two are
shorter than 4. -/
theorem generate_close_load_roundtrip_witness :
    (generate_close_load fresh_world "words.db" 5 (some sample_source)).map
      (fun d => dictionary_exists d [97, 112, 112, 108, 101]) = some (some (some 0)) ∧
    (generate_close_load fresh_world "words.db" 5 (some sample_source)).map
      (fun d => dictionary_exists d [98, 101, 101]) = some (some (some 1)) ∧
    (generate_close_load fresh_world "words.db" 5 (some sample_source)).map
      (fun d => dictionary_exists d [99, 97, 116]) = some (some (some 2)) ∧
    (generate_close_load fresh_world "words.db" 5 (some sample_source)).map
      (fun d => dictionary_equal_to d 3) = some (some 2) ∧
    (generate_close_load fresh_world "words.db" 5 (some sample_source)).map
      (fun d => dictionary_larger_than d 3) = some (some 1) ∧
    (generate_close_load fresh_world "words.db" 5 (some sample_source)).map
      (fun d => dictionary_smaller_than d 4) = some (some 2) ∧
    ∃ w1 d1 region,
      dictionary_generate fresh_world (dictionary_new "words.db" 5) (some sample_source)
        = some (w1, d1, 1) ∧ d1.base = some region ∧ region.length = 5 ∧
      (dictionary_load (dictionary_close w1 d1) (dictionary_new "words.db" 5)).2.1.base
        = d1.base := by
  refine ⟨by decide, by decide, by decide, by decide, by decide, by decide, ?_⟩
  obtain ⟨w1, d1, region, hgen, hbase, hlen⟩ :=
    (generate_close_load_roundtrip fresh_world "words.db" 5 (some sample_source)).2
      _ rfl (by decide) (by decide) rfl rfl (by decide) (by decide) (by decide)
  exact ⟨w1, d1, region, hgen, hbase, hlen,
    ((generate_close_load_roundtrip fresh_world "words.db" 5 (some sample_source)).1
      w1 d1 1 hgen).1⟩

/-- C10, as stated, fails: capacity 3 and the single line a. The empty query is
found, in the unused slot 1. -/
theorem exists_empty_word_found :
    (dictionary_generate fresh_world (dictionary_new "words.db" 3)
        (some (source_of_lines [[97]]))).map
      (fun r => (r.2.2, dictionary_exists r.2.1 []))
      = some (1, some (some 1)) ∧
    [[97]].length < 3 ∧ [] ∉ [[97]] := by
  decide

/-- C10, amended: after generating into a fresh region from fewer lines than
the capacity, none of them empty, `dictionary_exists` on the empty word returns the
word field of the first unused slot, the all-zero record at index `k`. -/
theorem exists_empty_word_first_unused (w : World) (path : String) (cap : Nat)
    (lines : List (List Nat)) (hfresh : opens_fresh w path cap)
    (hgood : ∀ l ∈ lines, good_line l) (hk : lines.length < cap) (hempty : [] ∉ lines) :
    ∃ w1 d1,
      dictionary_generate w (dictionary_new path cap) (some (source_of_lines lines))
        = some (w1, d1, 1) ∧
      dictionary_exists d1 [] = some (some lines.length) ∧
      deref d1.base lines.length = some zero_item := by
  obtain ⟨w1, d1, hgen, hreg⟩ := generate_fresh w path cap lines hfresh hgood
  have hex := dictionary_exists_eq_first_match d1 (gen_region cap lines) [] hreg
    (gen_region_terminated cap lines hgood) (by simp)
  have hunused := gen_region_getElem_unused cap lines lines.length hk (le_refl _)
  refine ⟨w1, d1, hgen, ?_, by rw [hreg.1]; exact hunused⟩
  rw [hex]
  congr 1
  rw [first_match_some]
  refine ⟨lines.length, by omega, ⟨zero_item, hunused, stored_word_zero_item⟩, ?_⟩
  intro m hm item hitem
  have hl : lines[m]? = some lines[m] := List.getElem?_eq_getElem hm
  rw [gen_region_getElem_line cap lines m _ (by omega) hl] at hitem
  have hmem : lines[m] ∈ lines := List.getElem_mem hm
  obtain ⟨h98, h0, _⟩ := hgood _ hmem
  rw [← Option.some.inj hitem, stored_word_item_of_line _ h0 (by unfold WORD_SIZE; omega)]
  intro heq
  exact hempty (heq ▸ hmem)

/-- C10, amended, at capacity 3 and the lines a, bb. -/
theorem exists_empty_word_first_unused_witness :
    opens_fresh fresh_world "words.db" 3 ∧ (∀ l ∈ [[97], [98, 98]], good_line l) ∧
    [[97], [98, 98]].length < 3 ∧ [] ∉ [[97], [98, 98]] ∧
    ∃ w1 d1,
      dictionary_generate fresh_world (dictionary_new "words.db" 3)
        (some (source_of_lines [[97], [98, 98]])) = some (w1, d1, 1) ∧
      dictionary_exists d1 [] = some (some [[97], [98, 98]].length) ∧
      deref d1.base [[97], [98, 98]].length = some zero_item :=
  ⟨by unfold opens_fresh; decide, by unfold good_line; decide, by decide, by decide,
    exists_empty_word_first_unused fresh_world "words.db" 3 [[97], [98, 98]]
      (by unfold opens_fresh; decide) (by unfold good_line; decide) (by decide) (by decide)⟩

/-- C11: after `dictionary_generate` into a fresh region returns, from any source,
`dictionary_exists` returns NULL for every query string of more than 99 bytes; and
the call does return, with 1, for every source text free of NUL. -/
theorem exists_long_query_absent (w : World) (path : String) (cap : Nat) (f : List Nat)
    (hfresh : opens_fresh w path cap) :
    (∀ w1 d1 r, dictionary_generate w (dictionary_new path cap) (some f) = some (w1, d1, r) →
      ∀ word, 0 ∉ word → 99 < word.length → dictionary_exists d1 word = some none) ∧
    (0 ∉ f →
      ∃ w1 d1, dictionary_generate w (dictionary_new path cap) (some f) = some (w1, d1, 1)) := by
  refine ⟨?_, generate_fresh_total w path cap f hfresh⟩
  intro w1 d1 r hgen word hword hlong
  obtain ⟨region, hreg, hbound⟩ := generate_fresh_some w path cap f w1 d1 r hfresh hgen
  rw [dictionary_exists_eq_first_match d1 region word hreg (bounded_terminated region hbound)
    hword]
  congr 1
  rw [first_match_none]
  intro item hitem heq
  have := (hbound item hitem).2.2.2
  rw [heq] at this
  omega

/-- C11, at capacity 3, the lines apple, bee, cat and a query of 100 bytes `a`. -/
theorem exists_long_query_absent_witness :
    opens_fresh fresh_world "words.db" 3 ∧ 0 ∉ sample_source ∧
    0 ∉ List.replicate 100 97 ∧ 99 < (List.replicate 100 97).length ∧
    ∃ w1 d1, dictionary_generate fresh_world (dictionary_new "words.db" 3) (some sample_source)
        = some (w1, d1, 1) ∧
      dictionary_exists d1 (List.replicate 100 97) = some none := by
  have hfresh : opens_fresh fresh_world "words.db" 3 := by unfold opens_fresh; decide
  have h := exists_long_query_absent fresh_world "words.db" 3 sample_source hfresh
  obtain ⟨w1, d1, hgen⟩ := h.2 (by decide)
  exact ⟨hfresh, by decide, by decide, by decide, w1, d1, hgen,
    h.1 w1 d1 1 hgen _ (by decide) (by decide)⟩

/-- C12, at the failing input `num_items = 20000000`: the `size_t` product is
2240000000, the `int` that receives it is negative, and the open fails on it; at
`num_items = 268435457` the `int` is 112 and the file gets one record. -/
theorem open_map_len_truncated :
    dictionary_len (dictionary_new "words.db" 20000000) = 20000000 * sizeof_dict_item ∧
    size_to_int (dictionary_len (dictionary_new "words.db" 20000000)) = -2054967296 ∧
    dictionary_open_map fresh_world (dictionary_new "words.db" 20000000)
      = (fresh_world, dictionary_new "words.db" 20000000, EXIT_FAILURE) ∧
    dictionary_len (dictionary_new "words.db" 268435457) = 268435457 * sizeof_dict_item ∧
    size_to_int (dictionary_len (dictionary_new "words.db" 268435457)) = 112 ∧
    (dictionary_open_map fresh_world (dictionary_new "words.db" 268435457)).1.file
      = [zero_item] := by
  decide

/-- C13: when the source cannot be opened, `dictionary_generate` returns 0 and
leaves the handle and the file as `dictionary_open_map` left them; when the source is
opened, every return is 1, and the call does return for a text free of NUL, a
capacity whose byte size is positive and fits `int`, and system calls that succeed. -/
theorem generate_reports_source (w : World) (path : String) (cap : Nat) :
    dictionary_generate w (dictionary_new path cap) none
      = some ((dictionary_open_map w (dictionary_new path cap)).1,
          (dictionary_open_map w (dictionary_new path cap)).2.1, 0) ∧
    (∀ f w1 d1 r, dictionary_generate w (dictionary_new path cap) (some f) = some (w1, d1, r) →
      r = 1) ∧
    (∀ f, 0 ∉ f → w.open_fd ≠ -1 → w.ftruncate_ok = true → w.mmap_ok = true → 0 < cap →
      cap * sizeof_dict_item ≤ INT_MAX → (∀ item ∈ w.file, item.word.length = WORD_SIZE) →
      ∃ w1 d1, dictionary_generate w (dictionary_new path cap) (some f) = some (w1, d1, 1)) := by
  refine ⟨rfl, ?_, ?_⟩
  · intro f w1 d1 r h
    simp only [dictionary_generate] at h
    split at h
    · exact Option.noConfusion h
    · simp only [Option.some.injEq, Prod.mk.injEq] at h
      exact h.2.2.symm
  · intro f hf hfd hft hmm hcap hsize hfile
    obtain ⟨w1, d1, _, hgen, _, _⟩ := generate_total w path cap f hfd hft hmm hcap hsize hfile hf
    exact ⟨w1, d1, hgen⟩

/-- C13, at capacity 3 in a world without a backing file: with no source, and
with the lines apple, bee, cat. -/
theorem generate_reports_source_witness :
    dictionary_generate fresh_world (dictionary_new "words.db" 3) none
      = some ((dictionary_open_map fresh_world (dictionary_new "words.db" 3)).1,
          (dictionary_open_map fresh_world (dictionary_new "words.db" 3)).2.1, 0) ∧
    (dictionary_generate fresh_world (dictionary_new "words.db" 3) none).map
      (fun r => r.2.1.base) = some (some (fresh_region 3)) ∧
    0 ∉ sample_source ∧
    ∃ w1 d1, dictionary_generate fresh_world (dictionary_new "words.db" 3) (some sample_source)
      = some (w1, d1, 1) :=
  ⟨(generate_reports_source fresh_world "words.db" 3).1, by decide, by decide,
    (generate_reports_source fresh_world "words.db" 3).2.2 sample_source (by decide) (by decide)
      rfl rfl (by decide) (by decide) (by decide)⟩

/-- C14, at the failing input: `open` fails, capacity 3. `dictionary_open_map`
returns `EXIT_FAILURE` and maps nothing; `dictionary_generate` on an empty source
still returns 1, on the lines apple, bee, cat it goes on to write through the unset
`base`; `dictionary_load` returns no value. -/
theorem open_failure_not_propagated :
    dictionary_open_map failing_world (dictionary_new "words.db" 3)
      = (failing_world, dictionary_new "words.db" 3, EXIT_FAILURE) ∧
    dictionary_generate failing_world (dictionary_new "words.db" 3) (some [])
      = some (failing_world, dictionary_new "words.db" 3, 1) ∧
    dictionary_generate failing_world (dictionary_new "words.db" 3) (some sample_source)
      = none ∧
    dictionary_load failing_world (dictionary_new "words.db" 3)
      = (failing_world, dictionary_new "words.db" 3, none) := by
  decide

/-- C15, at the failing input: capacity 1 and a source of the two bytes NUL,
line feed. `fgets` hands over a line whose `strlen` is 0, so the copy length
`strlen(line) - 1`, also the value meant for `len`, is `SIZE_MAX`; the copy does not
fit the 100-byte `word` field and `dictionary_generate` leaves the defined behaviour. -/
theorem generate_nul_chunk_overflows :
    fgets WORD_SIZE [0, 10] = some ([0, 10, 0], []) ∧
    strlen [0, 10, 0] = some 0 ∧
    size_sub 0 1 = 18446744073709551615 ∧
    99 < size_sub 0 1 ∧
    zero_item.word.length = 100 ∧
    strncpy zero_item.word [0, 10, 0] (size_sub 0 1) = none ∧
    opens_fresh fresh_world "words.db" 1 ∧
    dictionary_generate fresh_world (dictionary_new "words.db" 1) (some [0, 10]) = none := by
  unfold opens_fresh
  decide

/-- C16, as stated, fails: a file whose slots hold xx and yyyyyyy, capacity 2,
and a source of one line (`k = 1`) of 100 bytes `a`. Slot 1, at index
`min k capacity`, is changed: it holds ayyyyyy and `len` 1. -/
theorem generate_changes_later_slot :
    (dictionary_open_map reused_world (dictionary_new "words.db" 2)).2.1.base.map
      (fun region => region.map (fun item => (stored_word item, item.len)))
      = some [([120, 120], 2), ([121, 121, 121, 121, 121, 121, 121], 7)] ∧
    (dictionary_generate reused_world (dictionary_new "words.db" 2)
        (some (source_of_lines [List.replicate 100 97]))).map
      (fun r => (r.2.2, r.2.1.base.map
        (fun region => region.map (fun item => (stored_word item, item.len)))))
      = some (1, some [(List.replicate 98 97, 98), ([97, 121, 121, 121, 121, 121, 121], 1)]) ∧
    min [List.replicate 100 97].length 2 ≤ 1 := by
  decide

/-- C16, amended: generating from lines of at most 98 bytes each, free of NUL,
over a region that holds `prior`: slot `i` of a stored line `l` gets the bytes of
`l` at the front of its `word` field, keeps the bytes from `l.length` on, and gets
`len = l.length`; every slot from index `min k cap` on is unchanged; and when the
slot held a longer word, its stored word is `l` followed by the stale tail, so
`dictionary_exists` on `l` does not return slot `i`. -/
theorem generate_frame (w : World) (path : String) (cap : Nat) (prior : List dict_item)
    (lines : List (List Nat)) (hopen : opens_on w path cap prior) (hlen : prior.length = cap)
    (hwords : ∀ item ∈ prior, item.word.length = WORD_SIZE)
    (hgood : ∀ l ∈ lines, good_line l) :
    ∃ w1 d1 region,
      dictionary_generate w (dictionary_new path cap) (some (source_of_lines lines))
        = some (w1, d1, 1) ∧
      d1.base = some region ∧
      (∀ (i : Nat) (l : List Nat) (old : dict_item), lines[i]? = some l → prior[i]? = some old →
        region[i]? = some (dict_item.mk (l ++ old.word.drop l.length) l.length)) ∧
      (∀ i, min lines.length cap ≤ i → region[i]? = prior[i]?) ∧
      (∀ (i : Nat) (l : List Nat) (old : dict_item), lines[i]? = some l → prior[i]? = some old →
        l.length < (stored_word old).length →
        ∃ item, region[i]? = some item ∧
          stored_word item = l ++ (stored_word old).drop l.length ∧
          stored_word item ≠ l ∧ dictionary_exists d1 l ≠ some (some i)) := by
  have hmax := (open_map_new_some w path cap _ hopen).1
  have hloop := generate_loop_lines lines prior [] (by simpa using hmax) hgood (by
    intro item hitem
    rw [hwords item hitem]
    unfold WORD_SIZE
    omega)
  simp only [List.nil_append, List.length_nil, hlen] at hloop
  obtain ⟨w1, d1, hgen, hbase, hnum, _⟩ := generate_of_loop w path cap prior
    (store_lines lines prior) _ hopen hlen (by rw [store_lines_length, hlen]) hloop
  refine ⟨w1, d1, store_lines lines prior, hgen, hbase, ?_, ?_, ?_⟩
  · intro i l old hl hold
    exact store_lines_getElem_line lines prior i l old hl hold
  · intro i hi
    by_cases hk : lines.length ≤ i
    · exact store_lines_getElem_rest lines prior i hk
    · have hcap : cap ≤ i := by omega
      rw [List.getElem?_eq_none (by rw [store_lines_length, hlen]; exact hcap),
        List.getElem?_eq_none (by rw [hlen]; exact hcap)]
  · intro i l old hl hold hlonger
    obtain ⟨_, h0, _⟩ := hgood l (List.getElem?_mem hl)
    have hget := store_lines_getElem_line lines prior i l old hl hold
    have hstored : stored_word { word := l ++ old.word.drop l.length, len := l.length }
        = l ++ (stored_word old).drop l.length := by
      simp only [stored_word]
      rw [c_str_append l _ h0, c_str_drop old.word l.length (Nat.le_of_lt hlonger)]
    have hne : stored_word { word := l ++ old.word.drop l.length, len := l.length } ≠ l := by
      rw [hstored]
      intro heq
      have hnil := List.append_right_eq_self.mp heq
      have hlen0 := congrArg List.length hnil
      simp only [List.length_drop, List.length_nil] at hlen0
      omega
    refine ⟨_, hget, hstored, hne, ?_⟩
    intro hex
    obtain ⟨item, hderef, hcmp⟩ := exists_loop_some d1.base l d1.num_items 0 i hex
    rw [hbase] at hderef
    have hitem : item = { word := l ++ old.word.drop l.length, len := l.length } := by
      have : (store_lines lines prior)[i]? = some item := hderef
      rw [hget] at this
      exact (Option.some.inj this).symm
    subst hitem
    exact hne (strcmp_zero _ l h0 hcmp)

/-- C16, amended, at the file whose slots hold xx and yyyyyyy, capacity 2 and
the single line a. -/
theorem generate_frame_witness :
    opens_on reused_world "words.db" 2 reused_world.file ∧ reused_world.file.length = 2 ∧
    (∀ item ∈ reused_world.file, item.word.length = WORD_SIZE) ∧
    (∀ l ∈ [[97]], good_line l) ∧
    ∃ w1 d1 region,
      dictionary_generate reused_world (dictionary_new "words.db" 2)
        (some (source_of_lines [[97]])) = some (w1, d1, 1) ∧
      d1.base = some region ∧
      (∀ (i : Nat) (l : List Nat) (old : dict_item), [[97]][i]? = some l → reused_world.file[i]? = some old →
        region[i]? = some (dict_item.mk (l ++ old.word.drop l.length) l.length)) ∧
      (∀ i, min [[97]].length 2 ≤ i → region[i]? = reused_world.file[i]?) ∧
      (∀ (i : Nat) (l : List Nat) (old : dict_item), [[97]][i]? = some l → reused_world.file[i]? = some old →
        l.length < (stored_word old).length →
        ∃ item, region[i]? = some item ∧
          stored_word item = l ++ (stored_word old).drop l.length ∧
          stored_word item ≠ l ∧ dictionary_exists d1 l ≠ some (some i)) :=
  ⟨by unfold opens_on; decide, by decide, by decide, by unfold good_line; decide,
    generate_frame reused_world "words.db" 2 reused_world.file [[97]]
      (by unfold opens_on; decide) (by decide) (by decide) (by unfold good_line; decide)⟩

/-- C17, as stated, fails: capacity 3, a first line of 100 bytes `a`, and a final
line of 98 bytes `a` without a line feed. No other line equals the final line, yet
`dictionary_exists` on it returns slot 0, which holds the first 98 bytes of line 0. -/
theorem exists_finds_unterminated_line :
    (dictionary_generate fresh_world (dictionary_new "words.db" 3)
        (some (source_of_lines [List.replicate 100 97] ++ List.replicate 98 97))).map
      (fun r => (r.2.2, dictionary_exists r.2.1 (List.replicate 98 97)))
      = some (1, some (some 0)) ∧
    (dictionary_generate fresh_world (dictionary_new "words.db" 3)
        (some (source_of_lines [List.replicate 100 97] ++ List.replicate 98 97))).map
      (fun r => r.2.1.base.map
        (fun region => region.map (fun item => (stored_word item, item.len))))
      = some (some [(List.replicate 98 97, 98), ([97], 1), (List.replicate 97 97, 97)]) ∧
    List.replicate 98 97 ∉ [List.replicate 100 97] ∧
    1 ≤ (List.replicate 98 97).length ∧ (List.replicate 98 97).length ≤ 99 := by
  decide

/-- C17, amended: after lines of at most 98 bytes each, a final line of `m` bytes
without a line feed, `1 ≤ m ≤ 99`, that gets a slot in a fresh region, is stored as
its first `m - 1` bytes with `len = m - 1`; and when no other line equals it,
`dictionary_exists` on the full final line returns NULL. -/
theorem generate_unterminated_last_line (w : World) (path : String) (cap : Nat)
    (lines : List (List Nat)) (last : List Nat) (hfresh : opens_fresh w path cap)
    (hgood : ∀ l ∈ lines, good_line l) (hm1 : 1 ≤ last.length) (hm99 : last.length ≤ 99)
    (h0 : 0 ∉ last) (h10 : 10 ∉ last) (hk : lines.length < cap) (hother : last ∉ lines) :
    ∃ w1 d1 region,
      dictionary_generate w (dictionary_new path cap) (some (source_of_lines lines ++ last))
        = some (w1, d1, 1) ∧
      d1.base = some region ∧
      (∃ item, region[lines.length]? = some item ∧
        stored_word item = last.take (last.length - 1) ∧ item.len = last.length - 1) ∧
      dictionary_exists d1 last = some none := by
  have hmax := (open_map_new_some w path cap _ hfresh).1
  have hflen : (fresh_region cap).length = cap := by simp [fresh_region]
  have hloop := generate_loop_lines_last lines last (fresh_region cap) []
    (by simpa using hmax) hgood (by
      intro item hitem
      rw [List.eq_of_mem_replicate hitem]
      simp [zero_item, WORD_SIZE]) hm1 hm99 h0 h10
  simp only [List.nil_append, List.length_nil, hflen, store_lines_fresh] at hloop
  have hgood1 : ∀ l ∈ lines ++ [last.take (last.length - 1)], good_line l := by
    intro l hl
    rcases List.mem_append.mp hl with h | h
    · exact hgood l h
    · rw [List.mem_singleton.mp h]
      refine ⟨by rw [List.length_take]; omega, fun hmem => h0 (List.mem_of_mem_take hmem),
        fun hmem => h10 (List.mem_of_mem_take hmem)⟩
  obtain ⟨w1, d1, hgen, hreg⟩ := generate_of_loop w path cap (fresh_region cap)
    (gen_region cap (lines ++ [last.take (last.length - 1)])) _ hfresh hflen
    (gen_region_length cap _) hloop
  have htake : (last.take (last.length - 1)).length = last.length - 1 := by
    rw [List.length_take]; omega
  refine ⟨w1, d1, _, hgen, hreg.1, ?_, ?_⟩
  · refine ⟨item_of_line (last.take (last.length - 1)), ?_, ?_, by simp [item_of_line, htake]⟩
    · exact gen_region_getElem_line cap _ lines.length _ hk (by simp)
    · exact stored_word_item_of_line _ (fun hmem => h0 (List.mem_of_mem_take hmem))
        (by rw [htake]; unfold WORD_SIZE; omega)
  · rw [dictionary_exists_eq_first_match d1 _ last hreg (gen_region_terminated cap _ hgood1) h0]
    congr 1
    rw [first_match_none]
    intro item hitem
    rcases gen_region_mem cap _ item hitem with ⟨l, hl, rfl⟩ | rfl
    · have hl1 := List.mem_of_mem_take hl
      obtain ⟨h98, hl0, _⟩ := hgood1 l hl1
      rw [stored_word_item_of_line l hl0 (by unfold WORD_SIZE; omega)]
      rcases List.mem_append.mp hl1 with h | h
      · exact fun heq => hother (heq ▸ h)
      · intro heq
        have hlen := congrArg List.length heq
        rw [List.mem_singleton.mp h, htake] at hlen
        omega
    · rw [stored_word_zero_item]
      intro heq
      rw [← heq] at hm1
      simp at hm1

/-- C17, amended, at capacity 3, the line a and the final line bee without a
line feed. -/
theorem generate_unterminated_last_line_witness :
    opens_fresh fresh_world "words.db" 3 ∧ (∀ l ∈ [[97]], good_line l) ∧
    1 ≤ [98, 101, 101].length ∧ [98, 101, 101].length ≤ 99 ∧ 0 ∉ [98, 101, 101] ∧
    10 ∉ [98, 101, 101] ∧ [[97]].length < 3 ∧ [98, 101, 101] ∉ [[97]] ∧
    ∃ w1 d1 region,
      dictionary_generate fresh_world (dictionary_new "words.db" 3)
        (some (source_of_lines [[97]] ++ [98, 101, 101])) = some (w1, d1, 1) ∧
      d1.base = some region ∧
      (∃ item, region[[[97]].length]? = some item ∧
        stored_word item = [98, 101, 101].take ([98, 101, 101].length - 1) ∧
        item.len = [98, 101, 101].length - 1) ∧
      dictionary_exists d1 [98, 101, 101] = some none :=
  ⟨by unfold opens_fresh; decide, by unfold good_line; decide, by decide, by decide, by decide,
    by decide, by decide, by decide,
    generate_unterminated_last_line fresh_world "words.db" 3 [[97]] [98, 101, 101]
      (by unfold opens_fresh; decide) (by unfold good_line; decide) (by decide) (by decide)
      (by decide) (by decide) (by decide) (by decide)⟩

/-- C18: for `m ≤ n` the three counts are defined, `dictionary_larger_than` does
not grow and `dictionary_smaller_than` does not shrink from `m` to `n`, and each
count is at most `num_items`. -/
theorem counts_monotone (dict : dict_t) (region : List dict_item) (m n : Nat)
    (hreg : has_region dict region) (hmn : m ≤ n) :
    ∃ a b c d e, dictionary_larger_than dict n = some a ∧ dictionary_larger_than dict m = some b ∧
      dictionary_smaller_than dict m = some c ∧ dictionary_smaller_than dict n = some d ∧
      dictionary_equal_to dict n = some e ∧
      a ≤ b ∧ c ≤ d ∧ b ≤ dict.num_items ∧ d ≤ dict.num_items ∧ e ≤ dict.num_items := by
  obtain ⟨hbase, hlen, hmax⟩ := hreg
  have hloop : ∀ p : dict_item → Bool,
      count_loop p dict.base dict.num_items 0 0 = some (region.countP p) := by
    intro p
    rw [hbase, ← hlen]
    exact count_loop_region p region (by omega)
  refine ⟨_, _, _, _, _, hloop _, hloop _, hloop _, hloop _, hloop _, ?_, ?_, ?_, ?_, ?_⟩
  · apply List.countP_mono_left
    intro item _ h
    simp only [decide_eq_true_eq] at h ⊢
    omega
  · apply List.countP_mono_left
    intro item _ h
    simp only [Bool.and_eq_true, decide_eq_true_eq] at h ⊢
    omega
  · rw [← hlen]; exact List.countP_le_length _
  · rw [← hlen]; exact List.countP_le_length _
  · rw [← hlen]; exact List.countP_le_length _

/-- C18, at the sample state with `m = 3` and `n = 4`. -/
theorem counts_monotone_witness :
    has_region sample_dict sample_region ∧ 3 ≤ 4 ∧
    ∃ a b c d e, dictionary_larger_than sample_dict 4 = some a ∧
      dictionary_larger_than sample_dict 3 = some b ∧
      dictionary_smaller_than sample_dict 3 = some c ∧
      dictionary_smaller_than sample_dict 4 = some d ∧
      dictionary_equal_to sample_dict 4 = some e ∧
      a ≤ b ∧ c ≤ d ∧ b ≤ sample_dict.num_items ∧ d ≤ sample_dict.num_items ∧
      e ≤ sample_dict.num_items :=
  ⟨⟨rfl, rfl, by decide⟩, by decide,
    counts_monotone sample_dict sample_region 3 4 ⟨rfl, rfl, by decide⟩ (by decide)⟩

end Dict
